import Mathlib

/-!
# Verification of the LP performance dashboard core

Shallow embedding of `src/lp_dashboard.py` (a pandas/streamlit script).
The script ingests a tabular execution-statistics report, validates the
schema, normalizes three display-formatted text columns into numeric
columns, scopes the table to one symbol, selects the best and worst
liquidity-provider row for a chosen metric, and produces a sorted ranking
table.

Modelling conventions:
* Python/numpy floating-point cell values are modelled by `PyF`: an exact
  rational together with the IEEE special values `+inf`, `-inf` and `nan`.
  Rounding of decimal literals to binary doubles (and overflow of huge
  literals to infinity) is not modelled; the claims settled here do not
  depend on it.  Comparisons follow IEEE semantics (`nan` incomparable).
* A pandas `DataFrame` is modelled by `Table`: an ordered association list
  of column name to column data, each column an ordered list of cells.
  Per the input contract (spec §6) the raw report cells are
  display-formatted strings, so raw columns are string columns; the
  normalized columns added by the script are numeric columns.
* `Series.astype(float)` on a column of strings converts cell by cell with
  Python `float(...)` and raises a `ValueError` naming the offending text
  at the first failing cell; this is `convCol` below, with the error record
  `NormErr` carrying the column being converted (identified in the raised
  traceback by the failing statement) and the post-strip text that appears
  in the `ValueError` message.
* `Series.idxmax`/`idxmin` return the index of the first occurrence of the
  extreme value, excluding `nan` entries; they raise on an empty series and
  on an all-`nan` series.  This is `idxExt` below.
* `DataFrame.sort_values` sorts by the key column with `nan` placed last
  (`na_position='last'`); the model uses a stable insertion sort, which
  agrees with the script's sort on the sortedness of the key column and on
  the multiset of rows (the properties proved here); the tie order of the
  library's default `'quicksort'` kind is not relied upon.
-/

namespace LPDash

/-- A Python/numpy floating-point value: an exact rational (rounding not
modelled) or one of the special values. -/
inductive PyF where
  | fin (q : ℚ)
  | pinf
  | ninf
  | nan
deriving DecidableEq, Repr

/-- `nan` test (pandas `isna` on a float). -/
def PyF.isNA : PyF → Bool
  | .nan => true
  | _ => false

/-- Finiteness of a float value. -/
def PyF.isFinite : PyF → Bool
  | .fin _ => true
  | _ => false

/-- IEEE `<` on floats: any comparison with `nan` is false. -/
def pyLt : PyF → PyF → Bool
  | .fin a, .fin b => decide (a < b)
  | .fin _, .pinf => true
  | .ninf, .fin _ => true
  | .ninf, .pinf => true
  | _, _ => false

/-! ## Python `float(...)` string conversion

`Series.astype(float)` on an object column of strings converts each cell
with Python's `float` constructor: optional surrounding whitespace, an
optional sign, then either a decimal literal (ASCII digits, optional
single underscores between digits, optional fractional part and exponent)
or one of the case-insensitive spellings `inf`, `infinity`, `nan`. -/

/-- Whitespace characters stripped by Python `float(...)`. -/
def isSpaceC (c : Char) : Bool :=
  c == ' ' || c == '\t' || c == '\n' || c == '\r' || c == '\x0b' || c == '\x0c'

/-- Strip leading and trailing whitespace. -/
def trimWs (l : List Char) : List Char :=
  ((l.dropWhile isSpaceC).reverse.dropWhile isSpaceC).reverse

/-- Consume an optional single leading sign; returns (isNegative, rest). -/
def splitSign : List Char → Bool × List Char
  | '-' :: cs => (true, cs)
  | '+' :: cs => (false, cs)
  | cs => (false, cs)

/-- Numeric value of an ASCII digit. -/
def digitVal (c : Char) : ℕ := c.toNat - 48

/-- Consume a Python digit part: digits with optional single underscores
between digits.  Returns (accumulated value, number of digits consumed,
rest).  An underscore is only consumed when it sits between two digits.
Structural recursion on a fuel argument (one unit per step, each step
consumes at least one character) keeps the definition kernel-reducible. -/
def digitsAuxF : ℕ → ℕ → ℕ → List Char → ℕ × ℕ × List Char
  | _, v, n, [] => (v, n, [])
  | 0, v, n, l => (v, n, l)
  | fuel + 1, v, n, c :: cs =>
    if c.isDigit then digitsAuxF fuel (10 * v + digitVal c) (n + 1) cs
    else if c = '_' ∧ 0 < n then
      match cs with
      | d :: cs2 =>
        if d.isDigit then digitsAuxF fuel (10 * v + digitVal d) (n + 1) cs2
        else (v, n, c :: cs)
      | [] => (v, n, [c])
    else (v, n, c :: cs)

/-- Consume a digit part of the given character list. -/
def digitsAux (v n : ℕ) (l : List Char) : ℕ × ℕ × List Char :=
  digitsAuxF l.length v n l

/-- The rational value `(iv + fv / 10^nf) * 10^e` of a parsed literal. -/
def qVal (iv fv : ℕ) (nf : ℕ) (e : ℤ) : ℚ :=
  ((iv : ℚ) + (fv : ℚ) / (10 : ℚ) ^ nf) * (10 : ℚ) ^ e

/-- Parse an unsigned Python float literal (input already lowercased);
`none` when the text is not a complete valid literal. -/
def parseNum (l : List Char) : Option ℚ :=
  let p1 := digitsAux 0 0 l
  let fr : ℕ × ℕ × List Char :=
    match p1.2.2 with
    | '.' :: cs => digitsAux 0 0 cs
    | r1 => (0, 0, r1)
  if p1.2.1 + fr.2.1 = 0 then none
  else
    match fr.2.2 with
    | [] => some (qVal p1.1 fr.1 fr.2.1 0)
    | 'e' :: cs =>
      let se := splitSign cs
      let ep := digitsAux 0 0 se.2
      if ep.2.1 = 0 ∨ ep.2.2 ≠ [] then none
      else some (qVal p1.1 fr.1 fr.2.1 (if se.1 then -(ep.1 : ℤ) else (ep.1 : ℤ)))
    | _ => none

/-- Python `float(s)`: `none` models a raised `ValueError`. -/
def pyFloat (s : String) : Option PyF :=
  let l := trimWs (s.data.map Char.toLower)
  let sp := splitSign l
  if sp.2 = "inf".data ∨ sp.2 = "infinity".data then
    some (if sp.1 then PyF.ninf else PyF.pinf)
  else if sp.2 = "nan".data then some PyF.nan
  else (parseNum sp.2).map (fun q => PyF.fin (if sp.1 then -q else q))

/-! ## String stripping (`Series.str.replace` with empty replacement)

Python `str.replace(pat, "")` removes each leftmost non-overlapping occurrence
of `pat`; the script only ever replaces with the empty string.  The pattern
is passed as first character plus rest so it is structurally non-empty; a
fuel argument (one unit per character examined) keeps it kernel-reducible. -/

/-- `dropPre pat l` returns the rest of `l` after the prefix `pat`, when
`pat` is a prefix. -/
def dropPre : List Char → List Char → Option (List Char)
  | [], l => some l
  | _ :: _, [] => none
  | p :: ps, c :: cs => if p = c then dropPre ps cs else none

/-- Remove all leftmost non-overlapping occurrences of the non-empty
pattern `p0 :: ps`. -/
def replaceAllF (p0 : Char) (ps : List Char) : ℕ → List Char → List Char
  | _, [] => []
  | 0, l => l
  | fuel + 1, c :: cs =>
    if c = p0 then
      match dropPre ps cs with
      | some rest => replaceAllF p0 ps fuel rest
      | none => c :: replaceAllF p0 ps fuel cs
    else c :: replaceAllF p0 ps fuel cs

/-- `str.replace` of the non-empty pattern `p0 :: ps` with `""`. -/
def replaceAll (p0 : Char) (ps : List Char) (l : List Char) : List Char :=
  replaceAllF p0 ps l.length l

/-- Line 61-66: strip all `%` characters from a percentage cell. -/
def stripPct (l : List Char) : List Char := replaceAll '%' [] l

/-- Line 68-73: strip all `ms` substrings from a latency cell. -/
def stripMs (l : List Char) : List Char := replaceAll 'm' ['s'] l

/-- Line 75-81: strip all `$` and `,` characters from a volume cell. -/
def stripVol (l : List Char) : List Char :=
  replaceAll ',' [] (replaceAll '$' [] l)

/-! ## Tables -/

/-- One cell of a table. -/
inductive CellV where
  | s (v : String)
  | f (v : PyF)
deriving DecidableEq, Repr

/-- One column of a `DataFrame`: a string (object) column or a float64
column. -/
inductive ColData where
  | strs (cs : List String)
  | nums (cs : List PyF)
deriving DecidableEq, Repr

/-- Number of cells of a column. -/
def ColData.len : ColData → ℕ
  | .strs cs => cs.length
  | .nums cs => cs.length

/-- Cell at a row position. -/
def ColData.cell? : ColData → ℕ → Option CellV
  | .strs cs, i => (cs.get? i).map CellV.s
  | .nums cs, i => (cs.get? i).map CellV.f

/-- Placeholder for Python `str()` of a float, used by `astype(str)`.  Only
reachable when a raw numeric-bearing column already holds floats; per the
input contract (spec §6) the raw report supplies display-formatted strings,
and every theorem below constrains the raw columns to be string columns, so
the rational branch's coarse rendering is never exercised. -/
def pyfStr : PyF → String
  | .nan => "nan"
  | .pinf => "inf"
  | .ninf => "-inf"
  | .fin q => toString q.num ++ "/" ++ toString q.den

/-- `astype(str)` of a column. -/
def ColData.asStrs : ColData → List String
  | .strs cs => cs
  | .nums cs => cs.map pyfStr

/-- A `DataFrame`: an ordered association list of column name to column
data (rows are the common positions of the columns).  `read_csv` de-dupes
repeated header names, so names are unique in well-formed inputs. -/
structure Table where
  cols : List (String × ColData)
deriving DecidableEq, Repr

/-- The column names, in order. -/
def Table.names (t : Table) : List String := t.cols.map Prod.fst

/-- `df[n]`: first column named `n`. -/
def Table.get? (t : Table) (n : String) : Option ColData :=
  (t.cols.find? (fun p => p.1 == n)).map Prod.snd

/-- `df[n] = d`: replace the column named `n` in place, or append a new
column at the end. -/
def Table.setCol (t : Table) (n : String) (d : ColData) : Table :=
  if (t.cols.find? (fun p => p.1 == n)).isSome then
    ⟨t.cols.map (fun p => if p.1 == n then (n, d) else p)⟩
  else ⟨t.cols ++ [(n, d)]⟩

/-- Number of rows (length of the first column; 0 for no columns). -/
def Table.nRows (t : Table) : ℕ :=
  match t.cols with
  | [] => 0
  | p :: _ => p.2.len

/-- Well-formedness: unique column names, all columns the same length. -/
def Table.wf (t : Table) : Prop :=
  t.names.Nodup ∧ ∀ p ∈ t.cols, p.2.len = t.nRows

instance decTableWf (t : Table) : Decidable t.wf :=
  inferInstanceAs (Decidable (t.names.Nodup ∧ ∀ p ∈ t.cols, p.2.len = t.nRows))

/-- The row at a position, as an ordered association list. -/
def Table.row (t : Table) (i : ℕ) : List (String × CellV) :=
  t.cols.filterMap (fun p => (p.2.cell? i).map (fun c => (p.1, c)))

/-- Look a field up in a row. -/
def rowGet? (r : List (String × CellV)) (n : String) : Option CellV :=
  (r.find? (fun p => p.1 == n)).map Prod.snd

/-- The numeric data of the column named `n`, when it is a float column. -/
def numCol? (t : Table) (n : String) : Option (List PyF) :=
  match t.get? n with
  | some (.nums ks) => some ks
  | _ => none

/-! ## Schema validation (lines 44-56) -/

/-- Line 44-50. -/
def required_columns : List String :=
  ["Core Symbol", "Maker Stream Name", "% Filled Volume",
   "Avg. Fill Latency", "Total Filled Volume"]

/-- Line 52: the required names absent from the table, by exact text
comparison, in the required list's order. -/
def missing_columns (t : Table) : List String :=
  required_columns.filter (fun c => !(t.names.contains c))

/-! ## Normalization (lines 61-81) -/

/-- The error of a failed `astype(float)`: the raised `ValueError` carries
`value`, the post-strip text of the first failing cell; `col` is the raw
column whose conversion statement raised (identified by the traceback). -/
structure NormErr where
  col : String
  value : String
deriving DecidableEq, Repr

/-- Errors aborting the script (uncaught exceptions / `st.stop`). -/
inductive PipeErr where
  | schema (missing : List String)
  | key (col : String)
  | norm (e : NormErr)
  | emptySeq
  | allNA
deriving DecidableEq, Repr

/-- `astype(float)` of a list of (already stripped) cell texts: converts
cell by cell in order, raising at the first cell Python `float` rejects. -/
def convCol (colName : String) : List String → Except NormErr (List PyF)
  | [] => .ok []
  | s :: rest =>
    match pyFloat s with
    | none => .error ⟨colName, s⟩
    | some v =>
      match convCol colName rest with
      | .error e => .error e
      | .ok vs => .ok (v :: vs)

/-- One normalization statement:
`df[canon] = df[raw].astype(str).str.replace(...).astype(float)`. -/
def normStep (t : Table) (rawName : String) (strip : List Char → List Char)
    (canonName : String) : Except PipeErr Table :=
  match t.get? rawName with
  | none => .error (.key rawName)
  | some col =>
    match convCol rawName (col.asStrs.map (fun s => (strip s.data).asString)) with
    | .error e => .error (.norm e)
    | .ok vs => .ok (t.setCol canonName (.nums vs))

/-- The three canonical numeric column names, in assignment order. -/
def canonNames : List String := ["Filled_Vol_Pct", "Avg_Latency_ms", "Total_Filled_Vol"]

/-- Lines 61-81: the three normalization statements in program order. -/
def normalize (t : Table) : Except PipeErr Table := do
  let t1 ← normStep t "% Filled Volume" stripPct "Filled_Vol_Pct"
  let t2 ← normStep t1 "Avg. Fill Latency" stripMs "Avg_Latency_ms"
  normStep t2 "Total Filled Volume" stripVol "Total_Filled_Vol"

/-! ## Filters (lines 86-106) -/

/-- `Series.unique()`: first-occurrence distinct values.  Fuel keeps the
definition kernel-reducible. -/
def uniqueValsF : ℕ → List String → List String
  | _, [] => []
  | 0, l => l
  | fuel + 1, x :: xs => x :: uniqueValsF fuel (xs.filter (fun y => !(y == x)))

/-- First-occurrence distinct values of a list. -/
def uniqueVals (l : List String) : List String := uniqueValsF l.length l

/-- Line 91-94: the `Core Symbol` options offered by the selectbox,
`sorted(df["Core Symbol"].unique())` (lexicographic by code point, as
Python sorts strings).  An absent or float `Core Symbol` column does not
arise after schema validation on a string-celled report. -/
def symbolOptions (t : Table) : List String :=
  match t.get? "Core Symbol" with
  | some (.strs cs) => List.insertionSort (· ≤ ·) (uniqueVals cs)
  | _ => []

/-- `df["Core Symbol"] == selected_symbol`, elementwise.  Comparing a float
column against a string yields `False` everywhere, as in pandas. -/
def eqMask (col : ColData) (sym : String) : List Bool :=
  match col with
  | .strs cs => cs.map (fun s => s == sym)
  | .nums cs => cs.map (fun _ => false)

/-- Keep the positions where the mask holds. -/
def filterMask {α : Type} : List Bool → List α → List α
  | b :: bs, x :: xs => if b then x :: filterMask bs xs else filterMask bs xs
  | _, _ => []

/-- A column restricted by a boolean mask. -/
def ColData.applyMask (mask : List Bool) : ColData → ColData
  | .strs cs => .strs (filterMask mask cs)
  | .nums cs => .nums (filterMask mask cs)

/-- Line 106: `sym_df = df[df["Core Symbol"] == selected_symbol]`, keeping
row order.  With no `Core Symbol` column pandas would raise a `KeyError`;
schema validation precludes it, and the model then filters everything away. -/
def symScope (t : Table) (sym : String) : Table :=
  match t.get? "Core Symbol" with
  | some col => ⟨t.cols.map (fun p => (p.1, p.2.applyMask (eqMask col sym)))⟩
  | none => ⟨t.cols.map (fun p => (p.1, p.2.applyMask []))⟩

/-! ## Metric resolution (lines 97-127) -/

/-- The closed three-element metric enumeration offered by the selectbox
(line 97-104). -/
inductive Metric where
  | filledPct
  | avgLatency
  | totalVolume
deriving DecidableEq, Repr

/-- The user-facing metric label (the selectbox options, lines 100-102). -/
def Metric.label : Metric → String
  | .filledPct => "% Filled Volume"
  | .avgLatency => "Avg Fill Latency (ms)"
  | .totalVolume => "Total Filled Volume"

/-- `metric_col`, the canonical column picked by the branch on
`selected_metric` (lines 111-127; the final `else` is `totalVolume`, the
only remaining selectbox option). -/
def Metric.col : Metric → String
  | .filledPct => "Filled_Vol_Pct"
  | .avgLatency => "Avg_Latency_ms"
  | .totalVolume => "Total_Filled_Vol"

/-- `higher_is_better` of the same branch. -/
def Metric.higherIsBetter : Metric → Bool
  | .filledPct => true
  | .avgLatency => false
  | .totalVolume => true

/-! ## Extremum selection (lines 111-127)

`Series.idxmax` / `Series.idxmin` return the position of the first
occurrence of the extreme value, excluding `nan` entries; they raise a
`ValueError` on an empty series and on an all-`nan` series. -/

/-- Generic first-extremum scan: `f w v` reads "`w` is strictly better
than `v`"; keeps the earlier position unless a later one is strictly
better, and skips `nan` entries. -/
def idxExt (f : PyF → PyF → Bool) : List PyF → Option ℕ
  | [] => none
  | v :: rest =>
    match idxExt f rest with
    | none => if v.isNA then none else some 0
    | some j =>
      if v.isNA then some (j + 1)
      else if f (rest.getD j .nan) v then some (j + 1) else some 0

/-- "Strictly better" for a maximum scan. -/
def gtB (w v : PyF) : Bool := pyLt v w

/-- "Strictly better" for a minimum scan. -/
def ltB (w v : PyF) : Bool := pyLt w v

/-- `Series.idxmax` (with positional index). -/
def idxmax? (ks : List PyF) : Option ℕ := idxExt gtB ks

/-- `Series.idxmin` (with positional index). -/
def idxmin? (ks : List PyF) : Option ℕ := idxExt ltB ks

/-- The two failure modes of `idxmax`/`idxmin` (distinct `ValueError`s in
pandas: empty sequence vs all-NA). -/
inductive SelErr where
  | emptySubset
  | allNA
deriving DecidableEq, Repr

/-- Lines 111-127: best and worst row positions of the symbol-scoped key
column.  `best = idxmax, worst = idxmin` when higher is better, swapped
when lower is better. -/
def bestWorst (ks : List PyF) (m : Metric) : Except SelErr (ℕ × ℕ) :=
  match ks with
  | [] => .error .emptySubset
  | _ :: _ =>
    match (if m.higherIsBetter then idxmax? ks else idxmin? ks),
          (if m.higherIsBetter then idxmin? ks else idxmax? ks) with
    | some b, some w => .ok (b, w)
    | _, _ => .error .allNA

/-- `a` is strictly more favorable than `b` under the metric's comparison
direction. -/
def moreFavorable (m : Metric) (a b : PyF) : Bool :=
  if m.higherIsBetter then pyLt b a else pyLt a b

/-! ## Ranking table (lines 154-175) -/

/-- The human-facing labels of the ranking table, in column order. -/
def rankLabels : List String :=
  ["LP Name", "% Filled Volume", "Avg Fill Latency (ms)", "Total Filled Volume"]

/-- Lines 154-166: project the four columns and rename them to the
human-facing labels (the select-then-rename composes to this table). -/
def rankBase? (ts : Table) : Option Table := do
  let c1 ← ts.get? "Maker Stream Name"
  let c2 ← ts.get? "Filled_Vol_Pct"
  let c3 ← ts.get? "Avg_Latency_ms"
  let c4 ← ts.get? "Total_Filled_Vol"
  pure ⟨[("LP Name", c1), ("% Filled Volume", c2),
         ("Avg Fill Latency (ms)", c3), ("Total Filled Volume", c4)]⟩

/-- Lines 169-171: the `by=` sort key — the selected metric label looked up
among the output table's own column names, falling back to `metric_col`. -/
def sortKeyName (names : List String) (label fallback : String) : String :=
  if names.contains label then names.getD (names.indexOf label) "" else fallback

/-- `a` sorts strictly before `b` under `sort_values` with the given
`ascending` flag and `na_position='last'`. -/
def rowBefore (asc : Bool) (a b : PyF) : Bool :=
  if a.isNA then false
  else if b.isNA then true
  else if asc then pyLt a b else pyLt b a

/-- The output row order of `sort_values` on the key values `ks`: a stable
sort of the row positions.  (The script's default `'quicksort'` kind fixes
no tie order; every property proved below — key sortedness and the row
multiset — is shared by any correct sort of `ks`.) -/
def sortPerm (ks : List PyF) (asc : Bool) : List ℕ :=
  List.insertionSort
    (fun i j => rowBefore asc (ks.getD j .nan) (ks.getD i .nan) = false)
    (List.range ks.length)

/-- A column reordered by a row-position list. -/
def ColData.reorder (perm : List ℕ) : ColData → ColData
  | .strs cs => .strs (perm.map (fun i => cs.getD i ""))
  | .nums cs => .nums (perm.map (fun i => cs.getD i .nan))

/-- A table reordered by a row-position list. -/
def Table.reorder (t : Table) (perm : List ℕ) : Table :=
  ⟨t.cols.map (fun p => (p.1, p.2.reorder perm))⟩

/-- Lines 154-173: the sorted ranking table of the symbol-scoped subset. -/
def rankTable? (ts : Table) (m : Metric) : Option Table := do
  let base ← rankBase? ts
  let key := sortKeyName base.names m.label m.col
  let ks ← numCol? base key
  pure (base.reorder (sortPerm ks (!m.higherIsBetter)))

/-! ## The full pipeline (one script run for fixed widget selections) -/

/-- What the script computes and displays: the best and worst row (KPI
cards) and the ranking table. -/
structure Output where
  best : List (String × CellV)
  worst : List (String × CellV)
  rank : Table
deriving DecidableEq, Repr

/-- One run of the script body after file read, for a fixed selected
symbol and metric: schema validation, normalization, symbol scoping,
best/worst selection, ranking. -/
def pipeline (t : Table) (sym : String) (m : Metric) : Except PipeErr Output := do
  match missing_columns t with
  | _ :: _ => throw (.schema (missing_columns t))
  | [] =>
    let tn ← normalize t
    let ts := symScope tn sym
    let ks ← match numCol? ts m.col with
      | some ks => pure ks
      | none => throw (.key m.col)
    let bw ← (bestWorst ks m).mapError
      (fun e => match e with
        | .emptySubset => PipeErr.emptySeq
        | .allNA => PipeErr.allNA)
    let rk ← match rankTable? ts m with
      | some r => pure r
      | none => throw (.key m.label)
    pure ⟨ts.row bw.1, ts.row bw.2, rk⟩

/-- Map a fallible cell function over a list, `none` at the first failing
cell (the per-cell reading of a column conversion). -/
def mapOpt {α β : Type} (g : α → Option β) : List α → Option (List β)
  | [] => some []
  | a :: rest =>
    match g a with
    | none => none
    | some b =>
      match mapOpt g rest with
      | none => none
      | some bs => some (b :: bs)

/-! ## Spec-side definitions for refinement comparisons -/

/-- The per-cell normalization rule of spec §4.2 for the percentage field:
strip all `%` characters, then parse as a float. -/
def specPct (s : String) : Option PyF := pyFloat ((stripPct s.data).asString)

/-- The per-cell normalization rule of spec §4.2 for the latency field:
strip all `ms` substrings, then parse as a float. -/
def specLat (s : String) : Option PyF := pyFloat ((stripMs s.data).asString)

/-- The per-cell normalization rule of spec §4.2 for the volume field:
strip all `$` and `,` characters, then parse as a float. -/
def specVol (s : String) : Option PyF := pyFloat ((stripVol s.data).asString)

/-- The ranking built with the sort key taken from the explicit metric
resolver (spec §4.3 and §9): the metric's canonical column of the
symbol-scoped table, rather than a label lookup among the output table's
own column names. -/
def specRankByResolver? (ts : Table) (m : Metric) : Option Table := do
  let base ← rankBase? ts
  let ks ← numCol? ts m.col
  pure (base.reorder (sortPerm ks (!m.higherIsBetter)))

/-! ## Concrete inputs used by witnesses and counterexamples -/

/-- A well-formed report (spec §8 scenario) plus a second symbol. -/
def Tok : Table := ⟨[
  ("Core Symbol", .strs ["EURUSD", "EURUSD", "GBPUSD"]),
  ("Maker Stream Name", .strs ["LP_A", "LP_B", "LP_C"]),
  ("% Filled Volume", .strs ["87.3%", "92.1%", "50%"]),
  ("Avg. Fill Latency", .strs ["120ms", "95ms", "10ms"]),
  ("Total Filled Volume", .strs ["$10,000.00", "$8,500.50", "$1.00"])]⟩

/-- `Tok` after normalization. -/
def TokN : Table := ((normalize Tok).toOption).getD ⟨[]⟩

/-- A report whose percentage cell spells `nan`: normalization accepts it
and the canonical value is `nan`. -/
def Tnan : Table := ⟨[
  ("Core Symbol", .strs ["EURUSD"]),
  ("Maker Stream Name", .strs ["LP_A"]),
  ("% Filled Volume", .strs ["nan"]),
  ("Avg. Fill Latency", .strs ["120ms"]),
  ("Total Filled Volume", .strs ["$1.00"])]⟩

/-- A report whose percentage cell spells `inf%`: normalization accepts it
and the canonical value is `+inf`, which is not finite. -/
def Tinf : Table := ⟨[
  ("Core Symbol", .strs ["EURUSD"]),
  ("Maker Stream Name", .strs ["LP_A"]),
  ("% Filled Volume", .strs ["inf%"]),
  ("Avg. Fill Latency", .strs ["120ms"]),
  ("Total Filled Volume", .strs ["$1.00"])]⟩

/-- `Tinf` after normalization. -/
def TinfN : Table := ((normalize Tinf).toOption).getD ⟨[]⟩

/-- A report with the malformed percentage cell `abc%` (spec §8 scenario). -/
def Tabc : Table := ⟨[
  ("Core Symbol", .strs ["EURUSD"]),
  ("Maker Stream Name", .strs ["LP_A"]),
  ("% Filled Volume", .strs ["abc%"]),
  ("Avg. Fill Latency", .strs ["120ms"]),
  ("Total Filled Volume", .strs ["$1.00"])]⟩

/-- A report whose only malformed cell sits in the latency column. -/
def Tlat : Table := ⟨[
  ("Core Symbol", .strs ["EURUSD"]),
  ("Maker Stream Name", .strs ["LP_A"]),
  ("% Filled Volume", .strs ["50%"]),
  ("Avg. Fill Latency", .strs ["xyzms"]),
  ("Total Filled Volume", .strs ["$1.00"])]⟩

/-- A report missing exactly the `Avg. Fill Latency` column (spec §8
scenario). -/
def Tmiss : Table := ⟨[
  ("Core Symbol", .strs ["EURUSD"]),
  ("Maker Stream Name", .strs ["LP_A"]),
  ("% Filled Volume", .strs ["87.3%"]),
  ("Total Filled Volume", .strs ["$1.00"])]⟩

/-- Two rows tied on the `% Filled Volume` sort key, `LP_A` first. -/
def Ttie1 : Table := ⟨[
  ("Core Symbol", .strs ["EURUSD", "EURUSD"]),
  ("Maker Stream Name", .strs ["LP_A", "LP_B"]),
  ("% Filled Volume", .strs ["50%", "50%"]),
  ("Avg. Fill Latency", .strs ["120ms", "95ms"]),
  ("Total Filled Volume", .strs ["$1.00", "$2.00"])]⟩

/-- `Ttie1` with its two (key-tied) rows swapped, `LP_B` first. -/
def Ttie2 : Table := ⟨[
  ("Core Symbol", .strs ["EURUSD", "EURUSD"]),
  ("Maker Stream Name", .strs ["LP_B", "LP_A"]),
  ("% Filled Volume", .strs ["50%", "50%"]),
  ("Avg. Fill Latency", .strs ["95ms", "120ms"]),
  ("Total Filled Volume", .strs ["$2.00", "$1.00"])]⟩

/-- A schema-valid report that already carries a column named
`Filled_Vol_Pct`: normalization overwrites it. -/
def Tclash : Table := ⟨[
  ("Core Symbol", .strs ["EURUSD"]),
  ("Maker Stream Name", .strs ["LP_A"]),
  ("% Filled Volume", .strs ["50%"]),
  ("Avg. Fill Latency", .strs ["120ms"]),
  ("Total Filled Volume", .strs ["$1.00"]),
  ("Filled_Vol_Pct", .strs ["7"])]⟩

/-- An already-normalized, symbol-scoped table with three rows (one `nan`
latency). -/
def Tsym : Table := ⟨[
  ("Core Symbol", .strs ["EURUSD", "EURUSD", "EURUSD"]),
  ("Maker Stream Name", .strs ["LP_A", "LP_B", "LP_C"]),
  ("Filled_Vol_Pct", .nums [.fin 50, .fin 80, .fin 20]),
  ("Avg_Latency_ms", .nums [.fin 10, .fin 5, .nan]),
  ("Total_Filled_Vol", .nums [.fin 100, .fin 200, .fin 300])]⟩

/-- The ranking table the script builds from `Tsym` for `% Filled Volume`. -/
def Rk4 : Table := (rankTable? Tsym Metric.filledPct).getD ⟨[]⟩

/-- The projected-and-renamed (unsorted) ranking base the script builds
from `Tsym`. -/
def Base9 : Table := (rankBase? Tsym).getD ⟨[]⟩

/-- The best row's stream name of one full run, when the run succeeds. -/
def bestStream (t : Table) (sym : String) (m : Metric) : Option CellV :=
  match pipeline t sym m with
  | .ok o => rowGet? o.best "Maker Stream Name"
  | .error _ => none

/-- The normalized percentage column of a table, when normalization
succeeds. -/
def normPctCol (t : Table) : Option (List PyF) :=
  match normalize t with
  | .ok u => numCol? u "Filled_Vol_Pct"
  | .error _ => none

/-- A named column after normalization, when normalization succeeds. -/
def colAfterNorm (t : Table) (n : String) : Option ColData :=
  match normalize t with
  | .ok u => u.get? n
  | .error _ => none

/-! # Theorems -/

/-! ## Order facts about `pyLt` -/

theorem pyLt_irrefl (a : PyF) : pyLt a a = false := by
  cases a <;> simp [pyLt]

theorem pyLt_asymm {a b : PyF} (h : pyLt a b = true) : pyLt b a = false := by
  cases a <;> cases b <;> simp_all [pyLt] <;> exact le_of_lt h

theorem pyLt_nan_left (b : PyF) : pyLt .nan b = false := by
  cases b <;> simp [pyLt]

theorem pyLt_nan_right (a : PyF) : pyLt a .nan = false := by
  cases a <;> simp [pyLt]

theorem rat_lt_split {x y z : ℚ} (h : x < y) : z < y ∨ x < z := by
  rcases lt_or_le z y with h1 | h1
  · exact Or.inl h1
  · exact Or.inr (lt_of_lt_of_le h h1)

theorem rat_lt_split2 {x y z : ℚ} (h : x < y) : x < z ∨ z < y := by
  rcases lt_or_le x z with h1 | h1
  · exact Or.inl h1
  · exact Or.inr (lt_of_le_of_lt h1 h)

/-- Linearity of `<` on non-`nan` values: if `c < a` then for any non-`nan`
`b`, either `b < a` or `c < b`. -/
theorem pyLt_split {a b c : PyF} (ha : a.isNA = false) (hb : b.isNA = false)
    (hc : c.isNA = false) (h : pyLt c a = true) :
    pyLt b a = true ∨ pyLt c b = true := by
  cases a <;> cases b <;> cases c <;>
    simp_all [pyLt, PyF.isNA] <;>
    exact rat_lt_split h

/-- Linearity of `<` on non-`nan` values, other orientation: if `a < c`
then for any non-`nan` `b`, either `a < b` or `b < c`. -/
theorem pyLt_split2 {a b c : PyF} (ha : a.isNA = false) (hb : b.isNA = false)
    (hc : c.isNA = false) (h : pyLt a c = true) :
    pyLt a b = true ∨ pyLt b c = true := by
  cases a <;> cases b <;> cases c <;>
    simp_all [pyLt, PyF.isNA] <;>
    exact rat_lt_split2 h

/-! ## Extremum-scan facts -/

theorem idxExt_bound {f : PyF → PyF → Bool} {ks : List PyF} {j : ℕ}
    (h : idxExt f ks = some j) :
    j < ks.length ∧ (ks.getD j .nan).isNA = false := by
  induction ks generalizing j with
  | nil => simp [idxExt] at h
  | cons v rest ih =>
    rw [idxExt] at h
    cases hrec : idxExt f rest with
    | none =>
      rw [hrec] at h
      dsimp only at h
      by_cases hna : v.isNA = true
      · rw [if_pos hna] at h
        exact absurd h (by simp)
      · rw [if_neg hna] at h
        obtain rfl : (0 : ℕ) = j := Option.some.inj h
        exact ⟨by simp, by simpa using hna⟩
    | some j' =>
      rw [hrec] at h
      dsimp only at h
      have hb := ih hrec
      by_cases hna : v.isNA = true
      · rw [if_pos hna] at h
        obtain rfl : j' + 1 = j := Option.some.inj h
        exact ⟨Nat.succ_lt_succ hb.1, by simpa using hb.2⟩
      · rw [if_neg hna] at h
        by_cases hf : f (rest.getD j' .nan) v = true
        · rw [if_pos hf] at h
          obtain rfl : j' + 1 = j := Option.some.inj h
          exact ⟨Nat.succ_lt_succ hb.1, by simpa using hb.2⟩
        · rw [if_neg hf] at h
          obtain rfl : (0 : ℕ) = j := Option.some.inj h
          exact ⟨by simp, by simpa using hna⟩

theorem idxExt_isSome (f : PyF → PyF → Bool) {ks : List PyF}
    (h : ∃ v ∈ ks, v.isNA = false) : ∃ j, idxExt f ks = some j := by
  induction ks with
  | nil => simp at h
  | cons v rest ih =>
    rw [idxExt]
    by_cases hna : v.isNA = true
    · have hrest : ∃ u ∈ rest, u.isNA = false := by
        rcases h with ⟨u, hu, hufalse⟩
        rcases List.mem_cons.1 hu with rfl | hu2
        · rw [hufalse] at hna
          exact absurd hna (by simp)
        · exact ⟨u, hu2, hufalse⟩
      rcases ih hrest with ⟨j', hj'⟩
      rw [hj']
      dsimp only
      rw [if_pos hna]
      exact ⟨j' + 1, rfl⟩
    · cases hrec : idxExt f rest with
      | none =>
        dsimp only
        rw [if_neg hna]
        exact ⟨0, rfl⟩
      | some j' =>
        dsimp only
        rw [if_neg hna]
        by_cases hf : f (rest.getD j' .nan) v = true
        · rw [if_pos hf]
          exact ⟨j' + 1, rfl⟩
        · rw [if_neg hf]
          exact ⟨0, rfl⟩

theorem idxExt_max {f : PyF → PyF → Bool}
    (hncmp : ∀ a b, a.isNA = true ∨ b.isNA = true → f a b = false)
    (hasym : ∀ a b, f a b = true → f b a = false)
    (hsplit : ∀ a b c, a.isNA = false → b.isNA = false → c.isNA = false →
      f a c = true → f a b = true ∨ f b c = true)
    {ks : List PyF} {j : ℕ} (h : idxExt f ks = some j) :
    ∀ v ∈ ks, f v (ks.getD j .nan) = false := by
  have hirr : ∀ a, f a a = false := by
    intro a
    by_cases hfa : f a a = true
    · exact (absurd hfa (by simp [hasym a a hfa]))
    · simpa using hfa
  induction ks generalizing j with
  | nil => simp [idxExt] at h
  | cons v rest ih =>
    rw [idxExt] at h
    cases hrec : idxExt f rest with
    | none =>
      rw [hrec] at h
      dsimp only at h
      by_cases hna : v.isNA = true
      · rw [if_pos hna] at h
        exact absurd h (by simp)
      · rw [if_neg hna] at h
        obtain rfl : (0 : ℕ) = j := Option.some.inj h
        intro u hu
        simp only [List.getD_cons_zero]
        rcases List.mem_cons.1 hu with rfl | hu2
        · exact hirr _
        · -- every element of rest is nan here, by idxExt_isSome's contrapositive
          have huna : u.isNA = true := by
            by_contra hc
            simp only [Bool.not_eq_true] at hc
            rcases idxExt_isSome f ⟨u, hu2, hc⟩ with ⟨j', hj'⟩
            rw [hj'] at hrec
            exact absurd hrec (by simp)
          exact hncmp u v (Or.inl huna)
    | some j' =>
      rw [hrec] at h
      dsimp only at h
      have hb := idxExt_bound hrec
      have hIH := ih hrec
      by_cases hna : v.isNA = true
      · rw [if_pos hna] at h
        obtain rfl : j' + 1 = j := Option.some.inj h
        intro u hu
        simp only [List.getD_cons_succ]
        rcases List.mem_cons.1 hu with rfl | hu2
        · exact hncmp u _ (Or.inl hna)
        · exact hIH u hu2
      · rw [if_neg hna] at h
        by_cases hf : f (rest.getD j' .nan) v = true
        · rw [if_pos hf] at h
          obtain rfl : j' + 1 = j := Option.some.inj h
          intro u hu
          simp only [List.getD_cons_succ]
          rcases List.mem_cons.1 hu with rfl | hu2
          · exact hasym _ _ hf
          · exact hIH u hu2
        · have hf2 : f (rest.getD j' .nan) v = false := by simpa using hf
          have hna2 : v.isNA = false := by simpa using hna
          rw [if_neg hf] at h
          obtain rfl : (0 : ℕ) = j := Option.some.inj h
          intro u hu
          simp only [List.getD_cons_zero]
          rcases List.mem_cons.1 hu with rfl | hu2
          · exact hirr _
          · by_cases huna : u.isNA = true
            · exact hncmp u v (Or.inl huna)
            · simp only [Bool.not_eq_true] at huna
              by_contra hc
              simp only [Bool.not_eq_false] at hc
              rcases hsplit u (rest.getD j' .nan) v huna hb.2 hna2 hc with hx | hx
              · rw [hIH u hu2] at hx
                exact absurd hx (by simp)
              · rw [hf2] at hx
                exact absurd hx (by simp)

theorem idxExt_first {f : PyF → PyF → Bool} {ks : List PyF} {j : ℕ}
    (h : idxExt f ks = some j) :
    ∀ i, i < j →
      (ks.getD i .nan).isNA = true ∨ f (ks.getD j .nan) (ks.getD i .nan) = true := by
  induction ks generalizing j with
  | nil => simp [idxExt] at h
  | cons v rest ih =>
    rw [idxExt] at h
    cases hrec : idxExt f rest with
    | none =>
      rw [hrec] at h
      dsimp only at h
      by_cases hna : v.isNA = true
      · rw [if_pos hna] at h
        exact absurd h (by simp)
      · rw [if_neg hna] at h
        obtain rfl : (0 : ℕ) = j := Option.some.inj h
        intro i hi
        exact absurd hi (by omega)
    | some j' =>
      rw [hrec] at h
      dsimp only at h
      by_cases hna : v.isNA = true
      · rw [if_pos hna] at h
        obtain rfl : j' + 1 = j := Option.some.inj h
        intro i hi
        cases i with
        | zero => exact Or.inl (by simpa using hna)
        | succ i' =>
          have hprev := ih hrec i' (by omega)
          simpa using hprev
      · rw [if_neg hna] at h
        by_cases hf : f (rest.getD j' .nan) v = true
        · rw [if_pos hf] at h
          obtain rfl : j' + 1 = j := Option.some.inj h
          intro i hi
          cases i with
          | zero => exact Or.inr (by simpa using hf)
          | succ i' =>
            have hprev := ih hrec i' (by omega)
            simpa using hprev
        · rw [if_neg hf] at h
          obtain rfl : (0 : ℕ) = j := Option.some.inj h
          intro i hi
          exact absurd hi (by omega)

/-! ## The strictly-better relations of `idxmax`/`idxmin` -/

theorem gtB_ncmp : ∀ a b : PyF, a.isNA = true ∨ b.isNA = true → gtB a b = false := by
  intro a b h
  rcases h with h | h
  · cases a <;> simp_all [gtB, PyF.isNA, pyLt_nan_right]
  · cases b <;> simp_all [gtB, PyF.isNA, pyLt_nan_left]

theorem gtB_asym : ∀ a b : PyF, gtB a b = true → gtB b a = false := by
  intro a b h
  exact pyLt_asymm h

theorem gtB_split : ∀ a b c : PyF, a.isNA = false → b.isNA = false →
    c.isNA = false → gtB a c = true → gtB a b = true ∨ gtB b c = true := by
  intro a b c ha hb hc h
  exact pyLt_split ha hb hc h

theorem ltB_ncmp : ∀ a b : PyF, a.isNA = true ∨ b.isNA = true → ltB a b = false := by
  intro a b h
  rcases h with h | h
  · cases a <;> simp_all [ltB, PyF.isNA, pyLt_nan_left]
  · cases b <;> simp_all [ltB, PyF.isNA, pyLt_nan_right]

theorem ltB_asym : ∀ a b : PyF, ltB a b = true → ltB b a = false := by
  intro a b h
  exact pyLt_asymm h

theorem ltB_split : ∀ a b c : PyF, a.isNA = false → b.isNA = false →
    c.isNA = false → ltB a c = true → ltB a b = true ∨ ltB b c = true := by
  intro a b c ha hb hc h
  exact pyLt_split2 ha hb hc h

/-! ## Facts about `bestWorst` -/

theorem bestWorst_eq {ks : List PyF} (hne : ks ≠ []) (m : Metric) {b w : ℕ}
    (hb : idxExt (if m.higherIsBetter then gtB else ltB) ks = some b)
    (hw : idxExt (if m.higherIsBetter then ltB else gtB) ks = some w) :
    bestWorst ks m = .ok (b, w) := by
  cases ks with
  | nil => exact absurd rfl hne
  | cons v rest =>
    rw [bestWorst]
    cases hm : m.higherIsBetter with
    | true =>
      rw [hm] at hb hw
      simp only [if_pos] at hb hw
      simp only [hm, if_pos, idxmax?, idxmin?, hb, hw]
    | false =>
      rw [hm] at hb hw
      simp only [Bool.false_eq_true, if_neg, if_false] at hb hw
      simp only [hm, Bool.false_eq_true, if_false, idxmax?, idxmin?, hb, hw]

theorem bestWorst_inv {ks : List PyF} {m : Metric} {b w : ℕ}
    (h : bestWorst ks m = .ok (b, w)) :
    idxExt (if m.higherIsBetter then gtB else ltB) ks = some b ∧
    idxExt (if m.higherIsBetter then ltB else gtB) ks = some w := by
  cases ks with
  | nil => simp [bestWorst] at h
  | cons v rest =>
    rw [bestWorst] at h
    cases hm : m.higherIsBetter with
    | true =>
      rw [hm] at h
      simp only [if_pos, idxmax?, idxmin?] at h ⊢
      cases h1 : idxExt gtB (v :: rest) with
      | none => rw [h1] at h; simp at h
      | some b' =>
        cases h2 : idxExt ltB (v :: rest) with
        | none => rw [h1, h2] at h; simp at h
        | some w' =>
          rw [h1, h2] at h
          dsimp only at h
          obtain ⟨rfl, rfl⟩ : b' = b ∧ w' = w := by
            have := Except.ok.inj h
            exact ⟨congrArg Prod.fst this, congrArg Prod.snd this⟩
          exact ⟨rfl, rfl⟩
    | false =>
      rw [hm] at h
      simp only [Bool.false_eq_true, if_false, idxmax?, idxmin?] at h ⊢
      cases h1 : idxExt ltB (v :: rest) with
      | none => rw [h1] at h; simp at h
      | some b' =>
        cases h2 : idxExt gtB (v :: rest) with
        | none => rw [h1, h2] at h; simp at h
        | some w' =>
          rw [h1, h2] at h
          dsimp only at h
          obtain ⟨rfl, rfl⟩ : b' = b ∧ w' = w := by
            have := Except.ok.inj h
            exact ⟨congrArg Prod.fst this, congrArg Prod.snd this⟩
          exact ⟨rfl, rfl⟩

theorem bestWorst_ne_empty {ks : List PyF} {m : Metric} (hne : ks ≠ []) :
    bestWorst ks m ≠ .error .emptySubset := by
  cases ks with
  | nil => exact absurd rfl hne
  | cons v rest =>
    rw [bestWorst]
    cases h1 : (if m.higherIsBetter then idxmax? (v :: rest) else idxmin? (v :: rest)) with
    | none =>
      cases h2 : (if m.higherIsBetter then idxmin? (v :: rest) else idxmax? (v :: rest)) with
      | none => simp
      | some w => simp
    | some b =>
      cases h2 : (if m.higherIsBetter then idxmin? (v :: rest) else idxmax? (v :: rest)) with
      | none => simp
      | some w => simp

/-! ## Support lemmas for symbol scoping -/

theorem uniqueValsF_subset {a : String} :
    ∀ (fuel : ℕ) (l : List String), a ∈ uniqueValsF fuel l → a ∈ l := by
  intro fuel
  induction fuel with
  | zero =>
    intro l h
    cases l with
    | nil => simpa [uniqueValsF] using h
    | cons x xs => simpa [uniqueValsF] using h
  | succ fuel ih =>
    intro l h
    cases l with
    | nil => simpa [uniqueValsF] using h
    | cons x xs =>
      rw [uniqueValsF] at h
      rcases List.mem_cons.1 h with rfl | h2
      · exact List.mem_cons_self _ _
      · have := ih _ h2
        exact List.mem_cons_of_mem _ (List.mem_filter.1 this).1

theorem uniqueVals_subset {a : String} {l : List String}
    (h : a ∈ uniqueVals l) : a ∈ l :=
  uniqueValsF_subset _ _ h

theorem mem_of_mem_symbolOptions {t : Table} {sym : String} {cs : List String}
    (hcs : t.get? "Core Symbol" = some (.strs cs))
    (h : sym ∈ symbolOptions t) : sym ∈ cs := by
  rw [symbolOptions, hcs] at h
  exact uniqueVals_subset (by simpa using h)

theorem get?_pair {t : Table} {n : String} {d : ColData}
    (h : t.get? n = some d) : ∃ p ∈ t.cols, p.1 = n ∧ p.2 = d := by
  rw [Table.get?] at h
  rcases Option.map_eq_some'.1 h with ⟨p, hfind, hsnd⟩
  have hmem := List.mem_of_find?_eq_some hfind
  have hname := List.find?_some hfind
  exact ⟨p, hmem, by simpa using hname, hsnd⟩

theorem symScope_col {t : Table} {sym : String} {cs : List String}
    (hcs : t.get? "Core Symbol" = some (.strs cs)) (n : String) :
    (symScope t sym).get? n =
      (t.get? n).map (fun c => c.applyMask (eqMask (.strs cs) sym)) := by
  unfold symScope
  rw [hcs]
  dsimp only
  rw [Table.get?, Table.get?]
  dsimp only
  rw [List.find?_map]
  have hp : ((fun p : String × ColData => p.1 == n) ∘
      (fun p : String × ColData => (p.1, p.2.applyMask (eqMask (.strs cs) sym))))
      = (fun p : String × ColData => p.1 == n) := rfl
  rw [hp, Option.map_map, Option.map_map]
  rfl

theorem one_le_length_filterMask {α : Type} :
    ∀ (mask : List Bool) (xs : List α), true ∈ mask → mask.length = xs.length →
      1 ≤ (filterMask mask xs).length := by
  intro mask
  induction mask with
  | nil => intro xs h; simp at h
  | cons b bs ih =>
    intro xs h hlen
    cases xs with
    | nil => simp at hlen
    | cons x xs' =>
      rcases List.mem_cons.1 h with hb | h2
      · rw [filterMask, if_pos hb.symm]
        simp
      · rw [filterMask]
        by_cases hb : b = true
        · rw [if_pos hb]
          simp
        · rw [if_neg hb]
          exact ih xs' h2 (by simpa using hlen)

theorem length_filterMask_congr {α β : Type} :
    ∀ (mask : List Bool) (xs : List α) (ys : List β), xs.length = ys.length →
      (filterMask mask xs).length = (filterMask mask ys).length := by
  intro mask
  induction mask with
  | nil => intro xs ys h; simp [filterMask]
  | cons b bs ih =>
    intro xs ys h
    cases xs with
    | nil =>
      cases ys with
      | nil => simp [filterMask]
      | cons y ys' => simp at h
    | cons x xs' =>
      cases ys with
      | nil => simp at h
      | cons y ys' =>
        rw [filterMask, filterMask]
        by_cases hb : b = true
        · rw [if_pos hb, if_pos hb]
          simpa using ih xs' ys' (by simpa using h)
        · rw [if_neg hb, if_neg hb]
          exact ih xs' ys' (by simpa using h)

theorem one_le_len_applyMask {mask : List Bool} {c : ColData}
    (ht : true ∈ mask) (hlen : mask.length = c.len) :
    1 ≤ (c.applyMask mask).len := by
  cases c with
  | strs cs2 =>
    have := one_le_length_filterMask mask cs2 ht (by simpa [ColData.len] using hlen)
    simpa [ColData.applyMask, ColData.len] using this
  | nums cs2 =>
    have := one_le_length_filterMask mask cs2 ht (by simpa [ColData.len] using hlen)
    simpa [ColData.applyMask, ColData.len] using this

/-! ## C1: extremum selection under the metric's comparison direction -/

/-- C1 (amended): for every key-column subset holding at least one
non-`nan` value, the selector returns `(best, worst)` row positions; no
row is strictly more favorable than the best and the worst is strictly
more favorable than no row, under the metric's comparison direction.  (As
stated the claim fails on an all-`nan` subset, where `idxmax`/`idxmin`
raise instead of returning rows — see the counterexample.) -/
theorem extremum_selector_sound (m : Metric) (ks : List PyF)
    (h : ∃ v ∈ ks, v.isNA = false) :
    ∃ b w, bestWorst ks m = Except.ok (b, w) ∧ b < ks.length ∧ w < ks.length ∧
      (∀ v ∈ ks, moreFavorable m v (ks.getD b .nan) = false) ∧
      (∀ v ∈ ks, moreFavorable m (ks.getD w .nan) v = false) := by
  have hne : ks ≠ [] := by rintro rfl; simp at h
  rcases idxExt_isSome (if m.higherIsBetter then gtB else ltB) h with ⟨b, hb⟩
  rcases idxExt_isSome (if m.higherIsBetter then ltB else gtB) h with ⟨w, hw⟩
  refine ⟨b, w, bestWorst_eq hne m hb hw,
    (idxExt_bound hb).1, (idxExt_bound hw).1, ?_, ?_⟩
  · intro v hv
    cases hm : m.higherIsBetter with
    | true =>
      simp only [hm, if_true] at hb
      have hmax := idxExt_max gtB_ncmp gtB_asym gtB_split hb v hv
      simpa [moreFavorable, hm, gtB] using hmax
    | false =>
      simp only [hm, Bool.false_eq_true, if_false] at hb
      have hmax := idxExt_max ltB_ncmp ltB_asym ltB_split hb v hv
      simpa [moreFavorable, hm, ltB] using hmax
  · intro v hv
    cases hm : m.higherIsBetter with
    | true =>
      simp only [hm, if_true] at hw
      have hmax := idxExt_max ltB_ncmp ltB_asym ltB_split hw v hv
      simpa [moreFavorable, hm, ltB] using hmax
    | false =>
      simp only [hm, Bool.false_eq_true, if_false] at hw
      have hmax := idxExt_max gtB_ncmp gtB_asym gtB_split hw v hv
      simpa [moreFavorable, hm, gtB] using hmax

/-- Witness for C1's theorem at a concrete key column with a `nan` entry,
metric `Avg Fill Latency (ms)`. -/
theorem extremum_selector_sound_witness :
    ∃ b w, bestWorst [PyF.fin 1, PyF.nan, PyF.fin 3] Metric.avgLatency
        = Except.ok (b, w) ∧
      b < [PyF.fin 1, PyF.nan, PyF.fin 3].length ∧
      w < [PyF.fin 1, PyF.nan, PyF.fin 3].length ∧
      (∀ v ∈ [PyF.fin 1, PyF.nan, PyF.fin 3], moreFavorable Metric.avgLatency v
        ([PyF.fin 1, PyF.nan, PyF.fin 3].getD b .nan) = false) ∧
      (∀ v ∈ [PyF.fin 1, PyF.nan, PyF.fin 3], moreFavorable Metric.avgLatency
        ([PyF.fin 1, PyF.nan, PyF.fin 3].getD w .nan) v = false) :=
  extremum_selector_sound Metric.avgLatency _ ⟨PyF.fin 1, by simp, rfl⟩

/-- Counterexample to C1 as stated: a one-row (hence non-empty)
symbol-scoped subset whose `% Filled Volume` cell is `nan`; the selector
raises (all-NA `ValueError`) instead of returning a best/worst row, and
the whole run aborts. -/
theorem extremum_selector_cex :
    (symScope (((normalize Tnan).toOption).getD ⟨[]⟩) "EURUSD").nRows = 1 ∧
    numCol? (symScope (((normalize Tnan).toOption).getD ⟨[]⟩) "EURUSD")
      Metric.filledPct.col = some [PyF.nan] ∧
    bestWorst [PyF.nan] Metric.filledPct = Except.error SelErr.allNA ∧
    pipeline Tnan "EURUSD" Metric.filledPct = Except.error PipeErr.allNA :=
  ⟨by with_unfolding_all rfl, by with_unfolding_all rfl,
   by with_unfolding_all rfl, by with_unfolding_all rfl⟩

/-! ## C3: stability of the extremum tie-break -/

/-- C3 (amended): the selector is order-stable in the sense that the best
(resp. worst) pick is the first row position attaining the extreme value:
every earlier row is `nan` or strictly less favorable (resp. strictly more
favorable).  (The second half of C3 as stated — identical picks across
runs whose inputs permute distinct rows tied on the sort key — fails: with
the first-occurrence policy the pick follows the permutation; see the
counterexample.) -/
theorem extremum_first_tie (m : Metric) (ks : List PyF) (b w : ℕ)
    (h : bestWorst ks m = Except.ok (b, w)) :
    (∀ i, i < b → (ks.getD i .nan).isNA = true ∨
      moreFavorable m (ks.getD b .nan) (ks.getD i .nan) = true) ∧
    (∀ i, i < w → (ks.getD i .nan).isNA = true ∨
      moreFavorable m (ks.getD i .nan) (ks.getD w .nan) = true) := by
  obtain ⟨hb, hw⟩ := bestWorst_inv h
  constructor
  · intro i hi
    cases hm : m.higherIsBetter with
    | true =>
      simp only [hm, if_true] at hb
      rcases idxExt_first hb i hi with hna | hfb
      · exact Or.inl hna
      · exact Or.inr (by simpa [moreFavorable, hm, gtB] using hfb)
    | false =>
      simp only [hm, Bool.false_eq_true, if_false] at hb
      rcases idxExt_first hb i hi with hna | hfb
      · exact Or.inl hna
      · exact Or.inr (by simpa [moreFavorable, hm, ltB] using hfb)
  · intro i hi
    cases hm : m.higherIsBetter with
    | true =>
      simp only [hm, if_true] at hw
      rcases idxExt_first hw i hi with hna | hfb
      · exact Or.inl hna
      · exact Or.inr (by simpa [moreFavorable, hm, ltB] using hfb)
    | false =>
      simp only [hm, Bool.false_eq_true, if_false] at hw
      rcases idxExt_first hw i hi with hna | hfb
      · exact Or.inl hna
      · exact Or.inr (by simpa [moreFavorable, hm, gtB] using hfb)

/-- Witness for C3's theorem: with keys `[5, 9, 9]` and `% Filled Volume`
the selector picks position 1, the first of the two tied maxima, and
position 0 as worst. -/
theorem extremum_first_tie_witness :
    bestWorst [PyF.fin 5, PyF.fin 9, PyF.fin 9] Metric.filledPct
      = Except.ok (1, 0) ∧
    ((∀ i, i < 1 → (([PyF.fin 5, PyF.fin 9, PyF.fin 9].getD i .nan)).isNA = true ∨
      moreFavorable Metric.filledPct
        ([PyF.fin 5, PyF.fin 9, PyF.fin 9].getD 1 .nan)
        ([PyF.fin 5, PyF.fin 9, PyF.fin 9].getD i .nan) = true) ∧
     (∀ i, i < 0 → (([PyF.fin 5, PyF.fin 9, PyF.fin 9].getD i .nan)).isNA = true ∨
      moreFavorable Metric.filledPct
        ([PyF.fin 5, PyF.fin 9, PyF.fin 9].getD i .nan)
        ([PyF.fin 5, PyF.fin 9, PyF.fin 9].getD 0 .nan) = true)) :=
  ⟨by with_unfolding_all rfl,
   extremum_first_tie Metric.filledPct _ 1 0 (by with_unfolding_all rfl)⟩

/-- Counterexample to C3 as stated: `Ttie1` and `Ttie2` differ only by
permuting their two rows, which share the exact `% Filled Volume` sort-key
value 50.0, yet the best pick changes from `LP_A` to `LP_B`. -/
theorem tie_permutation_cex :
    Ttie1.row 0 = Ttie2.row 1 ∧ Ttie1.row 1 = Ttie2.row 0 ∧
    normPctCol Ttie1 = some [PyF.fin 50, PyF.fin 50] ∧
    normPctCol Ttie2 = some [PyF.fin 50, PyF.fin 50] ∧
    bestStream Ttie1 "EURUSD" Metric.filledPct = some (CellV.s "LP_A") ∧
    bestStream Ttie2 "EURUSD" Metric.filledPct = some (CellV.s "LP_B") :=
  ⟨by with_unfolding_all rfl, by with_unfolding_all rfl,
   by with_unfolding_all rfl, by with_unfolding_all rfl,
   by with_unfolding_all rfl, by with_unfolding_all rfl⟩

/-! ## C7: schema validation -/

/-- C7: the schema validator returns exactly the required names absent
from the table's columns under exact text comparison; a non-empty result
aborts the run with that list before any normalization; a table missing
only `Avg. Fill Latency` yields exactly `["Avg. Fill Latency"]`. -/
theorem schema_validator_exact (t : Table) (sym : String) (m : Metric) :
    (∀ c, c ∈ missing_columns t ↔ c ∈ required_columns ∧ ¬ c ∈ t.names) ∧
    (missing_columns t ≠ [] →
      pipeline t sym m = Except.error (.schema (missing_columns t))) ∧
    missing_columns Tmiss = ["Avg. Fill Latency"] := by
  refine ⟨?_, ?_, by with_unfolding_all rfl⟩
  · intro c
    simp [missing_columns, List.mem_filter]
  · intro hne
    rw [pipeline]
    cases hmc : missing_columns t with
    | nil => exact absurd hmc hne
    | cons a as => rfl

/-! ## C8: empty subsets are a defined failure, unreachable from the
symbol options -/

/-- C8: on a zero-row subset the selector fails with the defined
empty-sequence condition; and when the selected symbol is drawn from the
distinct `Core Symbol` values actually present, the symbol-scoped subset
has at least one row, its key column is non-empty, and the empty-subset
failure cannot occur. -/
theorem empty_subset_guard (t : Table) (sym : String) (m : Metric)
    (cs : List String) (hwf : t.wf)
    (hcs : t.get? "Core Symbol" = some (.strs cs)) :
    bestWorst [] m = Except.error SelErr.emptySubset ∧
    (∀ ks : List PyF, ks ≠ [] → bestWorst ks m ≠ Except.error SelErr.emptySubset) ∧
    (sym ∈ symbolOptions t →
      1 ≤ (symScope t sym).nRows ∧
      ∀ ks, numCol? (symScope t sym) m.col = some ks →
        bestWorst ks m ≠ Except.error SelErr.emptySubset) := by
  refine ⟨rfl, fun ks hne => bestWorst_ne_empty hne, ?_⟩
  intro hsym
  have hmem : sym ∈ cs := mem_of_mem_symbolOptions hcs hsym
  rcases get?_pair hcs with ⟨p, hpmem, hpname, hpval⟩
  have hcslen : cs.length = t.nRows := by
    have hl := hwf.2 p hpmem
    rw [hpval] at hl
    simpa [ColData.len] using hl
  have hmask : true ∈ eqMask (.strs cs) sym :=
    List.mem_map.2 ⟨sym, hmem, by simp⟩
  have hmasklen : (eqMask (.strs cs) sym).length = cs.length := by
    simp [eqMask]
  constructor
  · -- the scoped subset keeps at least the matching row
    cases hc : t.cols with
    | nil =>
      rw [hc] at hpmem
      simp at hpmem
    | cons q rest =>
      have hq2 : q.2.len = t.nRows := by rw [Table.nRows, hc]
      unfold symScope
      rw [hcs]
      dsimp only
      rw [hc]
      dsimp only [List.map]
      show 1 ≤ (q.2.applyMask (eqMask (.strs cs) sym)).len
      exact one_le_len_applyMask hmask (by rw [hmasklen, hcslen, hq2])
  · intro ks hks
    unfold numCol? at hks
    rw [symScope_col hcs m.col] at hks
    cases hcol : t.get? m.col with
    | none =>
      rw [hcol] at hks
      exact absurd hks (by simp)
    | some c =>
      rw [hcol] at hks
      cases c with
      | strs cs2 =>
        dsimp only [Option.map, ColData.applyMask] at hks
        exact absurd hks (by simp)
      | nums cs2 =>
        dsimp only [Option.map, ColData.applyMask] at hks
        obtain rfl : filterMask (eqMask (.strs cs) sym) cs2 = ks :=
          Option.some.inj hks
        rcases get?_pair hcol with ⟨r, hrmem, hrname, hrval⟩
        have hr2 : cs2.length = t.nRows := by
          have hl := hwf.2 r hrmem
          rw [hrval] at hl
          simpa [ColData.len] using hl
        have hone : 1 ≤ (filterMask (eqMask (.strs cs) sym) cs2).length :=
          one_le_length_filterMask _ _ hmask (by rw [hmasklen, hcslen, hr2])
        apply bestWorst_ne_empty
        intro hnil
        rw [hnil] at hone
        simp at hone

/-! ## Support lemmas for normalization -/

theorem mapOpt_map {α β γ : Type} (f : α → β) (g : β → Option γ) :
    ∀ l : List α, mapOpt g (l.map f) = mapOpt (fun a => g (f a)) l := by
  intro l
  induction l with
  | nil => rfl
  | cons a rest ih =>
    rw [List.map_cons, mapOpt, mapOpt, ih]

theorem convCol_ok_iff (n : String) :
    ∀ (ss : List String) (vs : List PyF),
      convCol n ss = .ok vs ↔ mapOpt pyFloat ss = some vs := by
  intro ss
  induction ss with
  | nil =>
    intro vs
    rw [convCol, mapOpt]
    constructor
    · intro h
      obtain rfl : ([] : List PyF) = vs := Except.ok.inj h
      rfl
    · intro h
      obtain rfl : ([] : List PyF) = vs := Option.some.inj h
      rfl
  | cons s rest ih =>
    intro vs
    rw [convCol, mapOpt]
    cases hp : pyFloat s with
    | none => simp
    | some v =>
      dsimp only
      cases hc : convCol n rest with
      | error e =>
        dsimp only
        constructor
        · intro h
          exact absurd h (by simp)
        · intro h
          cases hm : mapOpt pyFloat rest with
          | none => rw [hm] at h; exact absurd h (by simp)
          | some ys =>
            have hok : convCol n rest = .ok ys := (ih ys).2 hm
            rw [hc] at hok
            exact absurd hok (by simp)
      | ok ys =>
        dsimp only
        have hys : mapOpt pyFloat rest = some ys := (ih ys).1 hc
        rw [hys]
        dsimp only
        constructor
        · intro h
          obtain rfl : v :: ys = vs := Except.ok.inj h
          rfl
        · intro h
          obtain rfl : v :: ys = vs := Option.some.inj h
          rfl

theorem convCol_error (n : String) :
    ∀ (ss : List String) (e : NormErr), convCol n ss = .error e →
      e.col = n ∧ pyFloat e.value = none ∧ e.value ∈ ss := by
  intro ss
  induction ss with
  | nil =>
    intro e h
    exact absurd h (by simp [convCol])
  | cons s rest ih =>
    intro e h
    rw [convCol] at h
    cases hp : pyFloat s with
    | none =>
      rw [hp] at h
      dsimp only at h
      obtain rfl : NormErr.mk n s = e := Except.error.inj h
      exact ⟨rfl, hp, by simp⟩
    | some v =>
      rw [hp] at h
      dsimp only at h
      cases hc : convCol n rest with
      | error e' =>
        rw [hc] at h
        dsimp only at h
        obtain rfl : e' = e := Except.error.inj h
        rcases ih e' hc with ⟨h1, h2, h3⟩
        exact ⟨h1, h2, List.mem_cons_of_mem _ h3⟩
      | ok ys =>
        rw [hc] at h
        exact absurd h (by simp)

theorem normStep_eq {t : Table} {rawName : String} {cs : List String}
    (strip : List Char → List Char) (canonName : String)
    (hraw : t.get? rawName = some (.strs cs)) :
    normStep t rawName strip canonName =
      match convCol rawName (cs.map (fun s => (strip s.data).asString)) with
      | .error e => .error (.norm e)
      | .ok vs => .ok (t.setCol canonName (.nums vs)) := by
  unfold normStep
  rw [hraw]
  rfl

theorem except_bind_ok {ε α β : Type} (a : α) (f : α → Except ε β) :
    (Except.ok a : Except ε α) >>= f = f a := rfl

theorem except_bind_error {ε α β : Type} (e : ε) (f : α → Except ε β) :
    (Except.error e : Except ε α) >>= f = Except.error e := rfl

/-! ## Support lemmas for `setCol` and `get?` -/

theorem find?_pair_cons (n : String) (p : String × ColData)
    (rest : List (String × ColData)) :
    (p :: rest).find? (fun q => q.1 == n)
      = if p.1 == n then some p else rest.find? (fun q => q.1 == n) := by
  by_cases hp : (p.1 == n) = true
  · rw [if_pos hp]
    exact @List.find?_cons_of_pos _ (fun q => q.1 == n) p rest hp
  · rw [if_neg hp]
    exact @List.find?_cons_of_neg _ (fun q => q.1 == n) p rest (by simpa using hp)

theorem find?_replace_ne (c n : String) (d : ColData) (h : ¬ n = c) :
    ∀ cols : List (String × ColData),
      (cols.map (fun p => if p.1 == c then (c, d) else p)).find? (fun q => q.1 == n)
        = cols.find? (fun q => q.1 == n) := by
  have hcn : (c == n) = false := by
    simp only [beq_eq_false_iff_ne, ne_eq]
    intro hcn
    exact h hcn.symm
  intro cols
  induction cols with
  | nil => rfl
  | cons p rest ih =>
    rw [List.map_cons, find?_pair_cons, find?_pair_cons]
    by_cases hpc : (p.1 == c) = true
    · have hp1 : p.1 = c := by simpa using hpc
      rw [if_pos hpc]
      rw [if_neg (by simp [hcn]), if_neg (by simp [hp1, hcn]), ih]
    · rw [if_neg hpc]
      by_cases hpn : (p.1 == n) = true
      · rw [if_pos hpn, if_pos hpn]
      · rw [if_neg hpn, if_neg hpn, ih]

theorem find?_replace_same (c : String) (d : ColData) :
    ∀ cols : List (String × ColData),
      (cols.find? (fun p => p.1 == c)).isSome = true →
      (cols.map (fun p => if p.1 == c then (c, d) else p)).find? (fun q => q.1 == c)
        = some (c, d) := by
  intro cols
  induction cols with
  | nil =>
    intro h
    simp at h
  | cons p rest ih =>
    intro h
    rw [List.map_cons, find?_pair_cons]
    by_cases hpc : (p.1 == c) = true
    · rw [if_pos hpc]
      rw [if_pos (by simp)]
    · rw [if_neg hpc, if_neg hpc]
      apply ih
      rw [find?_pair_cons, if_neg hpc] at h
      exact h

theorem get?_setCol_ne (t : Table) (n c : String) (d : ColData) (h : ¬ n = c) :
    (t.setCol c d).get? n = t.get? n := by
  have hcn : (c == n) = false := by
    simp only [beq_eq_false_iff_ne, ne_eq]
    intro hcn
    exact h hcn.symm
  rw [Table.setCol]
  by_cases hex : (t.cols.find? (fun p => p.1 == c)).isSome
  · rw [if_pos hex, Table.get?, Table.get?, find?_replace_ne c n d h]
  · rw [if_neg hex, Table.get?, Table.get?, List.find?_append]
    cases hfind : t.cols.find? (fun p => p.1 == n) with
    | some p => rfl
    | none =>
      rw [find?_pair_cons, if_neg (by simp [hcn])]
      rfl

theorem get?_setCol_same (t : Table) (c : String) (d : ColData) :
    (t.setCol c d).get? c = some d := by
  rw [Table.setCol]
  by_cases hex : (t.cols.find? (fun p => p.1 == c)).isSome
  · rw [if_pos hex, Table.get?, find?_replace_same c d t.cols hex]
    rfl
  · rw [if_neg hex, Table.get?, List.find?_append]
    have hnone : t.cols.find? (fun p => p.1 == c) = none := by
      cases hfind : t.cols.find? (fun p => p.1 == c) with
      | none => rfl
      | some p => rw [hfind] at hex; simp at hex
    rw [hnone, find?_pair_cons, if_pos (by simp)]
    rfl

theorem names_setCol (t : Table) (c : String) (d : ColData) :
    (t.setCol c d).names = if (t.cols.find? (fun p => p.1 == c)).isSome
      then t.names else t.names ++ [c] := by
  rw [Table.setCol]
  by_cases hex : (t.cols.find? (fun p => p.1 == c)).isSome
  · rw [if_pos hex, if_pos hex, Table.names, Table.names, List.map_map]
    apply List.map_congr_left
    intro p _
    by_cases hpc : (p.1 == c) = true
    · have hp1 : p.1 = c := by simpa using hpc
      simp only [Function.comp_apply, if_pos hpc]
      exact hp1.symm
    · simp only [Function.comp_apply, if_neg hpc]
  · rw [if_neg hex, if_neg hex, Table.names, Table.names, List.map_append]
    rfl

theorem contains_of_find?_isSome {t : Table} {c : String}
    (h : (t.cols.find? (fun p => p.1 == c)).isSome) : c ∈ t.names := by
  rcases Option.isSome_iff_exists.1 h with ⟨p, hp⟩
  have hmem := List.mem_of_find?_eq_some hp
  have hname := List.find?_some hp
  have hp1 : p.1 = c := by simpa using hname
  exact hp1 ▸ List.mem_map_of_mem Prod.fst hmem

theorem find?_isSome_of_contains {t : Table} {c : String}
    (h : c ∈ t.names) : (t.cols.find? (fun p => p.1 == c)).isSome := by
  rcases List.mem_map.1 h with ⟨p, hpmem, hpname⟩
  rw [List.find?_isSome]
  exact ⟨p, hpmem, by simp [hpname]⟩

/-! ## Master inversion lemmas for `normalize` -/

theorem normalize_ok_parts {t t' : Table} {cs1 cs2 cs3 : List String}
    (hr1 : t.get? "% Filled Volume" = some (.strs cs1))
    (hr2 : t.get? "Avg. Fill Latency" = some (.strs cs2))
    (hr3 : t.get? "Total Filled Volume" = some (.strs cs3))
    (h : normalize t = .ok t') :
    ∃ vs1 vs2 vs3,
      mapOpt specPct cs1 = some vs1 ∧
      mapOpt specLat cs2 = some vs2 ∧
      mapOpt specVol cs3 = some vs3 ∧
      t' = ((t.setCol "Filled_Vol_Pct" (.nums vs1)).setCol "Avg_Latency_ms"
        (.nums vs2)).setCol "Total_Filled_Vol" (.nums vs3) := by
  rw [normalize] at h
  rw [normStep_eq stripPct "Filled_Vol_Pct" hr1] at h
  cases hc1 : convCol "% Filled Volume"
      (cs1.map (fun s => (stripPct s.data).asString)) with
  | error e =>
    rw [hc1] at h
    dsimp only at h
    rw [except_bind_error] at h
    exact absurd h (by simp)
  | ok vs1 =>
    rw [hc1] at h
    dsimp only at h
    rw [except_bind_ok] at h
    have hr2a : (t.setCol "Filled_Vol_Pct" (ColData.nums vs1)).get?
        "Avg. Fill Latency" = some (.strs cs2) := by
      rw [get?_setCol_ne _ _ _ _ (by decide)]
      exact hr2
    rw [normStep_eq stripMs "Avg_Latency_ms" hr2a] at h
    cases hc2 : convCol "Avg. Fill Latency"
        (cs2.map (fun s => (stripMs s.data).asString)) with
    | error e =>
      rw [hc2] at h
      dsimp only at h
      rw [except_bind_error] at h
      exact absurd h (by simp)
    | ok vs2 =>
      rw [hc2] at h
      dsimp only at h
      rw [except_bind_ok] at h
      have hr3a : ((t.setCol "Filled_Vol_Pct" (ColData.nums vs1)).setCol
          "Avg_Latency_ms" (ColData.nums vs2)).get?
          "Total Filled Volume" = some (.strs cs3) := by
        rw [get?_setCol_ne _ _ _ _ (by decide), get?_setCol_ne _ _ _ _ (by decide)]
        exact hr3
      rw [normStep_eq stripVol "Total_Filled_Vol" hr3a] at h
      cases hc3 : convCol "Total Filled Volume"
          (cs3.map (fun s => (stripVol s.data).asString)) with
      | error e =>
        rw [hc3] at h
        exact absurd h (by simp)
      | ok vs3 =>
        rw [hc3] at h
        dsimp only at h
        refine ⟨vs1, vs2, vs3, ?_, ?_, ?_, (Except.ok.inj h).symm⟩
        · have hm := (convCol_ok_iff _ _ _).1 hc1
          rw [mapOpt_map] at hm
          exact hm
        · have hm := (convCol_ok_iff _ _ _).1 hc2
          rw [mapOpt_map] at hm
          exact hm
        · have hm := (convCol_ok_iff _ _ _).1 hc3
          rw [mapOpt_map] at hm
          exact hm

theorem normalize_error_parts {t : Table} {pe : PipeErr} {cs1 cs2 cs3 : List String}
    (hr1 : t.get? "% Filled Volume" = some (.strs cs1))
    (hr2 : t.get? "Avg. Fill Latency" = some (.strs cs2))
    (hr3 : t.get? "Total Filled Volume" = some (.strs cs3))
    (h : normalize t = .error pe) :
    ∃ e, pe = .norm e ∧ pyFloat e.value = none ∧
      ((e.col = "% Filled Volume" ∧ ∃ s ∈ cs1, (stripPct s.data).asString = e.value) ∨
       (e.col = "Avg. Fill Latency" ∧ ∃ s ∈ cs2, (stripMs s.data).asString = e.value) ∨
       (e.col = "Total Filled Volume" ∧ ∃ s ∈ cs3, (stripVol s.data).asString = e.value)) := by
  rw [normalize] at h
  rw [normStep_eq stripPct "Filled_Vol_Pct" hr1] at h
  cases hc1 : convCol "% Filled Volume"
      (cs1.map (fun s => (stripPct s.data).asString)) with
  | error e =>
    rw [hc1] at h
    dsimp only at h
    rw [except_bind_error] at h
    obtain rfl : PipeErr.norm e = pe := Except.error.inj h
    rcases convCol_error _ _ _ hc1 with ⟨h1, h2, h3⟩
    rcases List.mem_map.1 h3 with ⟨s, hs, hval⟩
    exact ⟨e, rfl, h2, Or.inl ⟨h1, s, hs, hval⟩⟩
  | ok vs1 =>
    rw [hc1] at h
    dsimp only at h
    rw [except_bind_ok] at h
    have hr2a : (t.setCol "Filled_Vol_Pct" (ColData.nums vs1)).get?
        "Avg. Fill Latency" = some (.strs cs2) := by
      rw [get?_setCol_ne _ _ _ _ (by decide)]
      exact hr2
    rw [normStep_eq stripMs "Avg_Latency_ms" hr2a] at h
    cases hc2 : convCol "Avg. Fill Latency"
        (cs2.map (fun s => (stripMs s.data).asString)) with
    | error e =>
      rw [hc2] at h
      dsimp only at h
      rw [except_bind_error] at h
      obtain rfl : PipeErr.norm e = pe := Except.error.inj h
      rcases convCol_error _ _ _ hc2 with ⟨h1, h2, h3⟩
      rcases List.mem_map.1 h3 with ⟨s, hs, hval⟩
      exact ⟨e, rfl, h2, Or.inr (Or.inl ⟨h1, s, hs, hval⟩)⟩
    | ok vs2 =>
      rw [hc2] at h
      dsimp only at h
      rw [except_bind_ok] at h
      have hr3a : ((t.setCol "Filled_Vol_Pct" (ColData.nums vs1)).setCol
          "Avg_Latency_ms" (ColData.nums vs2)).get?
          "Total Filled Volume" = some (.strs cs3) := by
        rw [get?_setCol_ne _ _ _ _ (by decide), get?_setCol_ne _ _ _ _ (by decide)]
        exact hr3
      rw [normStep_eq stripVol "Total_Filled_Vol" hr3a] at h
      cases hc3 : convCol "Total Filled Volume"
          (cs3.map (fun s => (stripVol s.data).asString)) with
      | error e =>
        rw [hc3] at h
        dsimp only at h
        obtain rfl : PipeErr.norm e = pe := Except.error.inj h
        rcases convCol_error _ _ _ hc3 with ⟨h1, h2, h3⟩
        rcases List.mem_map.1 h3 with ⟨s, hs, hval⟩
        exact ⟨e, rfl, h2, Or.inr (Or.inr ⟨h1, s, hs, hval⟩)⟩
      | ok vs3 =>
        rw [hc3] at h
        exact absurd h (by simp)

theorem mapOpt_none {α β : Type} (g : α → Option β) :
    ∀ l : List α, (∃ a ∈ l, g a = none) → mapOpt g l = none := by
  intro l
  induction l with
  | nil =>
    intro h
    simp at h
  | cons a rest ih =>
    intro h
    rw [mapOpt]
    rcases h with ⟨b, hb, hnone⟩
    rcases List.mem_cons.1 hb with rfl | hb2
    · rw [hnone]
    · cases hg : g a with
      | none => rfl
      | some v =>
        dsimp only
        rw [ih ⟨b, hb2, hnone⟩]

theorem normalize_ok_cols {t t' : Table} {cs1 cs2 cs3 : List String}
    (hr1 : t.get? "% Filled Volume" = some (.strs cs1))
    (hr2 : t.get? "Avg. Fill Latency" = some (.strs cs2))
    (hr3 : t.get? "Total Filled Volume" = some (.strs cs3))
    (h : normalize t = .ok t') :
    numCol? t' "Filled_Vol_Pct" = mapOpt specPct cs1 ∧
    numCol? t' "Avg_Latency_ms" = mapOpt specLat cs2 ∧
    numCol? t' "Total_Filled_Vol" = mapOpt specVol cs3 := by
  rcases normalize_ok_parts hr1 hr2 hr3 h with ⟨vs1, vs2, vs3, hm1, hm2, hm3, rfl⟩
  refine ⟨?_, ?_, ?_⟩
  · unfold numCol?
    rw [get?_setCol_ne _ _ _ _ (by decide), get?_setCol_ne _ _ _ _ (by decide),
      get?_setCol_same, hm1]
  · unfold numCol?
    rw [get?_setCol_ne _ _ _ _ (by decide), get?_setCol_same, hm2]
  · unfold numCol?
    rw [get?_setCol_same, hm3]

theorem names_setCol_mem (t : Table) (c : String) (d : ColData) :
    (t.setCol c d).names = if c ∈ t.names then t.names else t.names ++ [c] := by
  rw [names_setCol]
  by_cases h : c ∈ t.names
  · rw [if_pos (find?_isSome_of_contains h), if_pos h]
  · rw [if_neg (fun hs => h (contains_of_find?_isSome hs)), if_neg h]

/-! ## C5: per-cell strip-then-parse normalization -/

/-- C5: normalization equals per-cell strip-then-parse — `%` characters
removed for the percentage field, `ms` substrings for the latency field,
`$` and `,` characters for the volume field, each then parsed as a float —
and `87.3%` yields 87.3, `142.5ms` yields 142.5, `$12,345.67` yields
12345.67, without altering magnitude. -/
theorem normalizer_strip_parse (t t' : Table) (cs1 cs2 cs3 : List String)
    (hr1 : t.get? "% Filled Volume" = some (.strs cs1))
    (hr2 : t.get? "Avg. Fill Latency" = some (.strs cs2))
    (hr3 : t.get? "Total Filled Volume" = some (.strs cs3))
    (h : normalize t = .ok t') :
    numCol? t' "Filled_Vol_Pct" = mapOpt specPct cs1 ∧
    numCol? t' "Avg_Latency_ms" = mapOpt specLat cs2 ∧
    numCol? t' "Total_Filled_Vol" = mapOpt specVol cs3 ∧
    specPct "87.3%" = some (.fin (873 / 10)) ∧
    specLat "142.5ms" = some (.fin (285 / 2)) ∧
    specVol "$12,345.67" = some (.fin (1234567 / 100)) := by
  rcases normalize_ok_cols hr1 hr2 hr3 h with ⟨h1, h2, h3⟩
  exact ⟨h1, h2, h3, by with_unfolding_all rfl, by with_unfolding_all rfl,
    by with_unfolding_all rfl⟩

/-- Witness for C5's theorem on the spec §8 report. -/
theorem normalizer_strip_parse_witness :
    numCol? TokN "Filled_Vol_Pct" = mapOpt specPct ["87.3%", "92.1%", "50%"] ∧
    numCol? TokN "Avg_Latency_ms" = mapOpt specLat ["120ms", "95ms", "10ms"] ∧
    numCol? TokN "Total_Filled_Vol"
      = mapOpt specVol ["$10,000.00", "$8,500.50", "$1.00"] ∧
    specPct "87.3%" = some (.fin (873 / 10)) ∧
    specLat "142.5ms" = some (.fin (285 / 2)) ∧
    specVol "$12,345.67" = some (.fin (1234567 / 100)) :=
  normalizer_strip_parse Tok TokN _ _ _ (by with_unfolding_all rfl)
    (by with_unfolding_all rfl) (by with_unfolding_all rfl)
    (by with_unfolding_all rfl)

/-! ## C2: every cell parses (possibly to a non-finite float) or the
conversion raises -/

/-- C2 (amended): for every table whose three raw numeric-bearing columns
are string columns, either normalization succeeds and each canonical
column holds exactly the per-cell parsed values — non-finite when a cell
spells an infinity or NaN — or it raises a conversion error whose carried
text is the post-strip content of a failing cell of the named column.  (As
stated the claim fails: a cell `inf%` normalizes to `+inf`, which is not
finite, with no error — see the counterexample.) -/
theorem normalization_total (t : Table) (cs1 cs2 cs3 : List String)
    (hr1 : t.get? "% Filled Volume" = some (.strs cs1))
    (hr2 : t.get? "Avg. Fill Latency" = some (.strs cs2))
    (hr3 : t.get? "Total Filled Volume" = some (.strs cs3)) :
    (∃ t', normalize t = .ok t' ∧
      numCol? t' "Filled_Vol_Pct" = mapOpt specPct cs1 ∧
      numCol? t' "Avg_Latency_ms" = mapOpt specLat cs2 ∧
      numCol? t' "Total_Filled_Vol" = mapOpt specVol cs3) ∨
    (∃ e, normalize t = .error (.norm e) ∧ pyFloat e.value = none ∧
      ((e.col = "% Filled Volume" ∧ ∃ s ∈ cs1, (stripPct s.data).asString = e.value) ∨
       (e.col = "Avg. Fill Latency" ∧ ∃ s ∈ cs2, (stripMs s.data).asString = e.value) ∨
       (e.col = "Total Filled Volume" ∧ ∃ s ∈ cs3, (stripVol s.data).asString = e.value))) := by
  cases hn : normalize t with
  | ok t' =>
    rcases normalize_ok_cols hr1 hr2 hr3 hn with ⟨h1, h2, h3⟩
    exact Or.inl ⟨t', rfl, h1, h2, h3⟩
  | error pe =>
    rcases normalize_error_parts hr1 hr2 hr3 hn with ⟨e, rfl, h2, h3⟩
    exact Or.inr ⟨e, rfl, h2, h3⟩

/-- Witness for C2's theorem on the spec §8 report. -/
theorem normalization_total_witness :
    (∃ t', normalize Tok = .ok t' ∧
      numCol? t' "Filled_Vol_Pct" = mapOpt specPct ["87.3%", "92.1%", "50%"] ∧
      numCol? t' "Avg_Latency_ms" = mapOpt specLat ["120ms", "95ms", "10ms"] ∧
      numCol? t' "Total_Filled_Vol"
        = mapOpt specVol ["$10,000.00", "$8,500.50", "$1.00"]) ∨
    (∃ e, normalize Tok = .error (.norm e) ∧ pyFloat e.value = none ∧
      ((e.col = "% Filled Volume" ∧
        ∃ s ∈ ["87.3%", "92.1%", "50%"], (stripPct s.data).asString = e.value) ∨
       (e.col = "Avg. Fill Latency" ∧
        ∃ s ∈ ["120ms", "95ms", "10ms"], (stripMs s.data).asString = e.value) ∨
       (e.col = "Total Filled Volume" ∧
        ∃ s ∈ ["$10,000.00", "$8,500.50", "$1.00"],
          (stripVol s.data).asString = e.value))) :=
  normalization_total Tok _ _ _ (by with_unfolding_all rfl)
    (by with_unfolding_all rfl) (by with_unfolding_all rfl)

/-- Counterexample to C2 as stated: the cell `inf%` normalizes without any
error to `+inf`, a non-finite canonical value carried into ranking. -/
theorem normalization_inf_cex :
    normalize Tinf = Except.ok TinfN ∧
    numCol? TinfN "Filled_Vol_Pct" = some [PyF.pinf] ∧
    PyF.pinf.isFinite = false :=
  ⟨by with_unfolding_all rfl, by with_unfolding_all rfl, rfl⟩

/-! ## C6: malformed cells abort the run -/

/-- C6 (amended): a cell of any of the three numeric-bearing columns that
does not reduce to a valid float after stripping aborts the whole run with
a conversion error raised at a failing column's conversion statement and
carrying that column's name and the post-strip text of one of its failing
cells; no ranking or KPI output is produced, and no cell is coerced to
zero or skipped.  (As stated the claim fails: the raised error carries the
post-strip text `abc`, not the original cell value `abc%` — see the
counterexample.) -/
theorem malformed_cell_error (t : Table) (sym : String) (m : Metric)
    (cs1 cs2 cs3 : List String)
    (hmc : missing_columns t = [])
    (hr1 : t.get? "% Filled Volume" = some (.strs cs1))
    (hr2 : t.get? "Avg. Fill Latency" = some (.strs cs2))
    (hr3 : t.get? "Total Filled Volume" = some (.strs cs3))
    (hfail : (∃ s ∈ cs1, specPct s = none) ∨ (∃ s ∈ cs2, specLat s = none) ∨
      (∃ s ∈ cs3, specVol s = none)) :
    ∃ e, pipeline t sym m = Except.error (PipeErr.norm e) ∧
      pyFloat e.value = none ∧
      ((e.col = "% Filled Volume" ∧ ∃ s ∈ cs1, (stripPct s.data).asString = e.value) ∨
       (e.col = "Avg. Fill Latency" ∧ ∃ s ∈ cs2, (stripMs s.data).asString = e.value) ∨
       (e.col = "Total Filled Volume" ∧ ∃ s ∈ cs3, (stripVol s.data).asString = e.value)) := by
  cases hn : normalize t with
  | ok t' =>
    rcases normalize_ok_parts hr1 hr2 hr3 hn with ⟨vs1, vs2, vs3, hm1, hm2, hm3, _⟩
    rcases hfail with hf | hf | hf
    · rw [mapOpt_none _ _ hf] at hm1
      exact absurd hm1 (by simp)
    · rw [mapOpt_none _ _ hf] at hm2
      exact absurd hm2 (by simp)
    · rw [mapOpt_none _ _ hf] at hm3
      exact absurd hm3 (by simp)
  | error pe =>
    rcases normalize_error_parts hr1 hr2 hr3 hn with ⟨e, rfl, hv, hdisj⟩
    refine ⟨e, ?_, hv, hdisj⟩
    unfold pipeline
    rw [hmc]
    dsimp only
    rw [hn]
    rfl

/-- Witness for C6's theorem: a report whose only malformed cell is the
latency cell `xyzms`. -/
theorem malformed_cell_error_witness :
    ∃ e, pipeline Tlat "EURUSD" Metric.filledPct = Except.error (PipeErr.norm e) ∧
      pyFloat e.value = none ∧
      ((e.col = "% Filled Volume" ∧
        ∃ s ∈ ["50%"], (stripPct s.data).asString = e.value) ∨
       (e.col = "Avg. Fill Latency" ∧
        ∃ s ∈ ["xyzms"], (stripMs s.data).asString = e.value) ∨
       (e.col = "Total Filled Volume" ∧
        ∃ s ∈ ["$1.00"], (stripVol s.data).asString = e.value)) :=
  malformed_cell_error Tlat "EURUSD" Metric.filledPct ["50%"] ["xyzms"] ["$1.00"]
    (by with_unfolding_all rfl) (by with_unfolding_all rfl)
    (by with_unfolding_all rfl) (by with_unfolding_all rfl)
    (Or.inr (Or.inl ⟨"xyzms", by simp, by with_unfolding_all rfl⟩))

/-- Counterexample to C6 as stated: on the cell `abc%` the raised error
carries `abc` — the post-strip text — which is not the original cell value
`abc%`. -/
theorem malformed_cell_cex :
    normalize Tabc = Except.error (PipeErr.norm ⟨"% Filled Volume", "abc"⟩) ∧
    pipeline Tabc "EURUSD" Metric.filledPct
      = Except.error (PipeErr.norm ⟨"% Filled Volume", "abc"⟩) ∧
    ("abc" : String) ≠ "abc%" :=
  ⟨by with_unfolding_all rfl, by with_unfolding_all rfl, by simp⟩

/-! ## C10: normalization only adds the canonical columns -/

/-- C10 (amended): normalization only adds (or, when a column of that name
already exists, overwrites) the three canonical numeric columns: every
column not named `Filled_Vol_Pct`, `Avg_Latency_ms` or `Total_Filled_Vol`
— in particular each of the five required columns — is unchanged cell for
cell and in order, and the resulting column-name list is the original one
followed by the canonical names not already present, in assignment order.
(As stated the claim fails when the input already carries a column with a
canonical name, which normalization overwrites — see the counterexample.
Downstream ranking and extremum selection are reads: in this model they
are pure functions of the normalized table and return fresh structures.) -/
theorem normalize_frame (t t' : Table) (cs1 cs2 cs3 : List String)
    (hr1 : t.get? "% Filled Volume" = some (.strs cs1))
    (hr2 : t.get? "Avg. Fill Latency" = some (.strs cs2))
    (hr3 : t.get? "Total Filled Volume" = some (.strs cs3))
    (h : normalize t = .ok t') :
    (∀ n, ¬ n ∈ canonNames → t'.get? n = t.get? n) ∧
    (∀ n, n ∈ required_columns → t'.get? n = t.get? n) ∧
    t'.names = t.names ++ (canonNames.filter (fun c => !(t.names.contains c))) := by
  rcases normalize_ok_parts hr1 hr2 hr3 h with ⟨vs1, vs2, vs3, hm1, hm2, hm3, rfl⟩
  have hget : ∀ n, ¬ n ∈ canonNames →
      (((t.setCol "Filled_Vol_Pct" (.nums vs1)).setCol "Avg_Latency_ms"
        (.nums vs2)).setCol "Total_Filled_Vol" (.nums vs3)).get? n = t.get? n := by
    intro n hn
    simp only [canonNames, List.mem_cons, List.not_mem_nil, or_false, not_or] at hn
    obtain ⟨hn1, hn2, hn3⟩ := hn
    rw [get?_setCol_ne _ _ _ _ hn3, get?_setCol_ne _ _ _ _ hn2,
      get?_setCol_ne _ _ _ _ hn1]
  refine ⟨hget, ?_, ?_⟩
  · intro n hn
    apply hget
    intro hcanon
    simp only [required_columns, List.mem_cons, List.not_mem_nil, or_false] at hn
    rcases hn with rfl | rfl | rfl | rfl | rfl <;> exact absurd hcanon (by decide)
  · rw [names_setCol_mem, names_setCol_mem, names_setCol_mem]
    have e21 : ¬ ("Avg_Latency_ms" : String) = "Filled_Vol_Pct" := by decide
    have e31 : ¬ ("Total_Filled_Vol" : String) = "Filled_Vol_Pct" := by decide
    have e32 : ¬ ("Total_Filled_Vol" : String) = "Avg_Latency_ms" := by decide
    by_cases h1 : "Filled_Vol_Pct" ∈ t.names <;>
      by_cases h2 : "Avg_Latency_ms" ∈ t.names <;>
        by_cases h3 : "Total_Filled_Vol" ∈ t.names <;>
          simp [h1, h2, h3, canonNames, e21, e31, e32, List.contains,
            List.elem_iff, List.mem_append, List.filter]

/-- Witness for C10's theorem on the spec §8 report, which carries no
canonical-named column. -/
theorem normalize_frame_witness :
    (∀ n, ¬ n ∈ canonNames → TokN.get? n = Tok.get? n) ∧
    (∀ n, n ∈ required_columns → TokN.get? n = Tok.get? n) ∧
    TokN.names = Tok.names
      ++ (canonNames.filter (fun c => !(Tok.names.contains c))) :=
  normalize_frame Tok TokN _ _ _ (by with_unfolding_all rfl)
    (by with_unfolding_all rfl) (by with_unfolding_all rfl)
    (by with_unfolding_all rfl)

/-- Counterexample to C10 as stated: a schema-valid input that already
carries a column named `Filled_Vol_Pct` (holding `"7"`) has that original
column's values replaced by the normalized percentages. -/
theorem normalize_only_adds_cex :
    Tclash.get? "Filled_Vol_Pct" = some (ColData.strs ["7"]) ∧
    colAfterNorm Tclash "Filled_Vol_Pct" = some (ColData.nums [PyF.fin 50]) ∧
    ColData.strs ["7"] ≠ ColData.nums [PyF.fin 50] :=
  ⟨by with_unfolding_all rfl, by with_unfolding_all rfl, by simp⟩

/-! ## Support lemmas for the ranking sort -/

theorem rowBefore_asym {asc : Bool} {a b : PyF} (h : rowBefore asc a b = true) :
    rowBefore asc b a = false := by
  unfold rowBefore at h ⊢
  by_cases ha : a.isNA = true
  · rw [if_pos ha] at h
    exact absurd h (by simp)
  · by_cases hb : b.isNA = true
    · rw [if_pos hb]
    · rw [if_neg ha, if_neg hb] at h
      rw [if_neg hb, if_neg ha]
      cases asc with
      | true =>
        rw [if_pos rfl] at h ⊢
        exact pyLt_asymm h
      | false =>
        rw [if_neg (by simp)] at h ⊢
        exact pyLt_asymm h

theorem rowBefore_split (asc : Bool) (a b c : PyF)
    (h : rowBefore asc a c = true) :
    rowBefore asc a b = true ∨ rowBefore asc b c = true := by
  unfold rowBefore at h ⊢
  by_cases ha : a.isNA = true
  · rw [if_pos ha] at h
    exact absurd h (by simp)
  · rw [if_neg ha] at h ⊢
    by_cases hb : b.isNA = true
    · exact Or.inl (by rw [if_pos hb])
    · rw [if_neg hb]
      by_cases hc : c.isNA = true
      · exact Or.inr (by rw [if_neg hb, if_pos hc])
      · rw [if_neg hc] at h
        rw [if_neg hb, if_neg hc]
        have ha2 : a.isNA = false := by simpa using ha
        have hb2 : b.isNA = false := by simpa using hb
        have hc2 : c.isNA = false := by simpa using hc
        cases asc with
        | true =>
          rw [if_pos rfl] at h ⊢
          rw [if_pos rfl]
          exact pyLt_split2 ha2 hb2 hc2 h
        | false =>
          rw [if_neg (by simp)] at h ⊢
          rw [if_neg (by simp)]
          exact pyLt_split ha2 hb2 hc2 h

theorem rowBefore_false_desc {x y : PyF} (h : rowBefore false y x = false) :
    pyLt x y = false := by
  unfold rowBefore at h
  by_cases hy : y.isNA = true
  · cases y <;> simp_all [PyF.isNA, pyLt_nan_right]
  · rw [if_neg hy] at h
    by_cases hx : x.isNA = true
    · rw [if_pos hx] at h
      exact absurd h (by simp)
    · rw [if_neg hx, if_neg (by simp)] at h
      exact h

theorem rowBefore_false_asc {x y : PyF} (h : rowBefore true y x = false) :
    pyLt y x = false := by
  unfold rowBefore at h
  by_cases hy : y.isNA = true
  · cases y <;> simp_all [PyF.isNA, pyLt_nan_left]
  · rw [if_neg hy] at h
    by_cases hx : x.isNA = true
    · rw [if_pos hx] at h
      exact absurd h (by simp)
    · rw [if_neg hx, if_pos rfl] at h
      exact h

theorem sortPerm_perm (ks : List PyF) (asc : Bool) :
    (sortPerm ks asc).Perm (List.range ks.length) :=
  List.perm_insertionSort _ _

theorem sortPerm_sorted (ks : List PyF) (asc : Bool) :
    List.Pairwise
      (fun i j => rowBefore asc (ks.getD j .nan) (ks.getD i .nan) = false)
      (sortPerm ks asc) := by
  haveI hT : IsTotal ℕ
      (fun i j => rowBefore asc (ks.getD j .nan) (ks.getD i .nan) = false) := by
    constructor
    intro i j
    cases hb : rowBefore asc (ks.getD j .nan) (ks.getD i .nan) with
    | false => exact Or.inl rfl
    | true => exact Or.inr (rowBefore_asym hb)
  haveI hTr : IsTrans ℕ
      (fun i j => rowBefore asc (ks.getD j .nan) (ks.getD i .nan) = false) := by
    constructor
    intro i j k h1 h2
    cases hb : rowBefore asc (ks.getD k .nan) (ks.getD i .nan) with
    | false => rfl
    | true =>
      rcases rowBefore_split asc _ (ks.getD j .nan) _ hb with hx | hx
      · rw [h2] at hx
        exact absurd hx (by simp)
      · rw [h1] at hx
        exact absurd hx (by simp)
  exact List.sorted_insertionSort _ _

theorem names_reorder (t : Table) (perm : List ℕ) :
    (t.reorder perm).names = t.names := by
  rw [Table.reorder, Table.names, Table.names, List.map_map]
  rfl

theorem get?_reorder (t : Table) (perm : List ℕ) (n : String) :
    (t.reorder perm).get? n = (t.get? n).map (fun c => c.reorder perm) := by
  rw [Table.reorder, Table.get?, Table.get?]
  dsimp only
  rw [List.find?_map]
  have hp : ((fun p : String × ColData => p.1 == n) ∘
      (fun p : String × ColData => (p.1, p.2.reorder perm)))
      = (fun p : String × ColData => p.1 == n) := rfl
  rw [hp, Option.map_map, Option.map_map]
  rfl

theorem getD_map_lt {α β : Type} (f : α → β) (l : List α) (i : ℕ) (d : β)
    (h : i < l.length) :
    (l.map f).getD i d = f (l.get ⟨i, h⟩) := by
  rw [List.getD_eq_getElem?_getD]
  rw [List.getElem?_map]
  rw [List.getElem?_eq_getElem h]
  rfl

theorem rankBase?_inv {ts base : Table} (h : rankBase? ts = some base) :
    ∃ c1 c2 c3 c4, ts.get? "Maker Stream Name" = some c1 ∧
      ts.get? "Filled_Vol_Pct" = some c2 ∧
      ts.get? "Avg_Latency_ms" = some c3 ∧
      ts.get? "Total_Filled_Vol" = some c4 ∧
      base = ⟨[("LP Name", c1), ("% Filled Volume", c2),
        ("Avg Fill Latency (ms)", c3), ("Total Filled Volume", c4)]⟩ := by
  rw [rankBase?] at h
  cases h1 : ts.get? "Maker Stream Name" with
  | none => rw [h1] at h; exact absurd h (by simp)
  | some c1 =>
    rw [h1] at h
    cases h2 : ts.get? "Filled_Vol_Pct" with
    | none => rw [h2] at h; exact absurd h (by simp)
    | some c2 =>
      rw [h2] at h
      cases h3 : ts.get? "Avg_Latency_ms" with
      | none => rw [h3] at h; exact absurd h (by simp)
      | some c3 =>
        rw [h3] at h
        cases h4 : ts.get? "Total_Filled_Vol" with
        | none => rw [h4] at h; exact absurd h (by simp)
        | some c4 =>
          rw [h4] at h
          exact ⟨c1, c2, c3, c4, rfl, rfl, rfl, rfl, (Option.some.inj h).symm⟩

theorem rankTable?_inv {ts : Table} {m : Metric} {rk : Table}
    (h : rankTable? ts m = some rk) :
    ∃ base ks, rankBase? ts = some base ∧
      numCol? base (sortKeyName base.names m.label m.col) = some ks ∧
      rk = base.reorder (sortPerm ks (!m.higherIsBetter)) := by
  rw [rankTable?] at h
  cases hb : rankBase? ts with
  | none => rw [hb] at h; exact absurd h (by simp)
  | some base =>
    rw [hb] at h
    simp only [Option.bind_eq_bind, Option.some_bind] at h
    cases hk : numCol? base (sortKeyName base.names m.label m.col) with
    | none => rw [hk] at h; exact absurd h (by simp)
    | some ks =>
      rw [hk] at h
      exact ⟨base, ks, rfl, hk, (Option.some.inj h).symm⟩

theorem sortKeyName_rankLabels (m : Metric) :
    sortKeyName rankLabels m.label m.col = m.label ∧
    rankLabels.contains m.label = true := by
  cases m <;> exact ⟨by with_unfolding_all rfl, by with_unfolding_all rfl⟩

theorem rankBase_get_label {ts base : Table} (m : Metric)
    (hb : rankBase? ts = some base) :
    base.get? m.label = ts.get? m.col ∧ base.names = rankLabels := by
  rcases rankBase?_inv hb with ⟨c1, c2, c3, c4, h1, h2, h3, h4, rfl⟩
  refine ⟨?_, rfl⟩
  cases m with
  | filledPct =>
    dsimp only [Metric.label, Metric.col]
    rw [Table.get?]
    dsimp only
    rw [find?_pair_cons]
    dsimp only
    rw [if_neg (by decide), find?_pair_cons]
    dsimp only
    rw [if_pos (by decide), h2]
    rfl
  | avgLatency =>
    dsimp only [Metric.label, Metric.col]
    rw [Table.get?]
    dsimp only
    rw [find?_pair_cons]
    dsimp only
    rw [if_neg (by decide), find?_pair_cons]
    dsimp only
    rw [if_neg (by decide), find?_pair_cons]
    dsimp only
    rw [if_pos (by decide), h3]
    rfl
  | totalVolume =>
    dsimp only [Metric.label, Metric.col]
    rw [Table.get?]
    dsimp only
    rw [find?_pair_cons]
    dsimp only
    rw [if_neg (by decide), find?_pair_cons]
    dsimp only
    rw [if_neg (by decide), find?_pair_cons]
    dsimp only
    rw [if_neg (by decide), find?_pair_cons]
    dsimp only
    rw [if_pos (by decide), h4]
    rfl

/-! ## C9: the label lookup and the metric resolver pick the same sort key -/

/-- C9: for each selectable metric label, the script's sort-key lookup —
the label found among the ranking table's own column names, with
`metric_col` as fallback — returns the label itself (the fallback branch
is never taken, since the renamed table's columns always contain all three
labels), the column it names is exactly the metric's canonical column of
the symbol-scoped table, and the ranking is identical whether the sort key
is resolved by label lookup or by the explicit metric-resolver mapping. -/
theorem sort_key_resolver_equiv (ts : Table) (m : Metric) (base : Table)
    (hb : rankBase? ts = some base) :
    base.names.contains m.label = true ∧
    sortKeyName base.names m.label m.col = m.label ∧
    base.get? m.label = ts.get? m.col ∧
    rankTable? ts m = specRankByResolver? ts m := by
  obtain ⟨hget, hnames⟩ := rankBase_get_label m hb
  have hkey : sortKeyName base.names m.label m.col = m.label := by
    rw [hnames]
    exact (sortKeyName_rankLabels m).1
  have hcontains : base.names.contains m.label = true := by
    rw [hnames]
    exact (sortKeyName_rankLabels m).2
  refine ⟨hcontains, hkey, hget, ?_⟩
  rw [rankTable?, specRankByResolver?, hb]
  simp only [Option.bind_eq_bind, Option.some_bind]
  rw [hkey]
  unfold numCol?
  rw [hget]

/-- Witness for C9's theorem on `Tsym` with `% Filled Volume`. -/
theorem sort_key_resolver_equiv_witness :
    rankBase? Tsym = some Base9 ∧
    (Base9.names.contains Metric.filledPct.label = true ∧
     sortKeyName Base9.names Metric.filledPct.label Metric.filledPct.col
       = Metric.filledPct.label ∧
     Base9.get? Metric.filledPct.label = Tsym.get? Metric.filledPct.col ∧
     rankTable? Tsym Metric.filledPct
       = specRankByResolver? Tsym Metric.filledPct) :=
  ⟨by with_unfolding_all rfl,
   sort_key_resolver_equiv Tsym Metric.filledPct Base9 (by with_unfolding_all rfl)⟩

/-! ## C4: the ranking table -/

/-- C4: the ranking table carries exactly the four fields under the
human-facing labels `LP Name`, `% Filled Volume`, `Avg Fill Latency (ms)`,
`Total Filled Volume`; its rows are exactly the projected rows of the
symbol-scoped subset, rearranged by one shared row permutation; and its
metric column is sorted descending when the metric is higher-is-better and
ascending when lower-is-better (`nan` rows, placed last, never witness a
violation of either ordering). -/
theorem ranking_builder_sound (ts : Table) (m : Metric) (rk : Table)
    (hwf : ts.wf) (h : rankTable? ts m = some rk) :
    rk.names = rankLabels ∧
    (∃ base perm, rankBase? ts = some base ∧ rk = base.reorder perm ∧
      perm.Perm (List.range ts.nRows)) ∧
    (∀ ksS, numCol? rk m.label = some ksS →
      ∀ i j : ℕ, i < j → j < ksS.length →
        (m.higherIsBetter = true →
          pyLt (ksS.getD i .nan) (ksS.getD j .nan) = false) ∧
        (m.higherIsBetter = false →
          pyLt (ksS.getD j .nan) (ksS.getD i .nan) = false)) := by
  rcases rankTable?_inv h with ⟨base, ks, hb, hk, rfl⟩
  obtain ⟨hget, hnames⟩ := rankBase_get_label m hb
  have hkey : sortKeyName base.names m.label m.col = m.label := by
    rw [hnames]
    exact (sortKeyName_rankLabels m).1
  rw [hkey] at hk
  have hbase : base.get? m.label = some (ColData.nums ks) := by
    unfold numCol? at hk
    cases hbg : base.get? m.label with
    | none => rw [hbg] at hk; exact absurd hk (by simp)
    | some c =>
      rw [hbg] at hk
      cases c with
      | strs cs => exact absurd hk (by simp)
      | nums ks2 =>
        obtain rfl : ks2 = ks := Option.some.inj hk
        rfl
  have hts : ts.get? m.col = some (ColData.nums ks) := by
    rw [← hget]
    exact hbase
  have hklen : ks.length = ts.nRows := by
    rcases get?_pair hts with ⟨p, hpmem, hpname, hpval⟩
    have hl := hwf.2 p hpmem
    rw [hpval] at hl
    simpa [ColData.len] using hl
  refine ⟨?_, ?_, ?_⟩
  · rw [names_reorder, hnames]
  · refine ⟨base, _, hb, rfl, ?_⟩
    rw [← hklen]
    exact sortPerm_perm ks _
  · intro ksS hksS i j hij hjlen
    have hksS2 : ksS = (sortPerm ks (!m.higherIsBetter)).map
        (fun i => ks.getD i .nan) := by
      unfold numCol? at hksS
      rw [get?_reorder, hbase] at hksS
      dsimp only [Option.map, ColData.reorder] at hksS
      exact (Option.some.inj hksS).symm
    subst hksS2
    have hjp : j < (sortPerm ks (!m.higherIsBetter)).length := by
      simpa using hjlen
    have hip : i < (sortPerm ks (!m.higherIsBetter)).length :=
      Nat.lt_trans hij hjp
    have hpw := List.pairwise_iff_get.1
      (sortPerm_sorted ks (!m.higherIsBetter)) ⟨i, hip⟩ ⟨j, hjp⟩
      (Fin.mk_lt_mk.2 hij)
    rw [getD_map_lt _ _ i _ hip, getD_map_lt _ _ j _ hjp]
    revert hpw
    generalize ks.getD ((sortPerm ks (!m.higherIsBetter)).get ⟨i, hip⟩) PyF.nan = x
    generalize ks.getD ((sortPerm ks (!m.higherIsBetter)).get ⟨j, hjp⟩) PyF.nan = y
    intro hpw
    constructor
    · intro hhib
      rw [hhib] at hpw
      simp only [Bool.not_true] at hpw
      exact rowBefore_false_desc hpw
    · intro hhib
      rw [hhib] at hpw
      simp only [Bool.not_false] at hpw
      exact rowBefore_false_asc hpw

/-- Witness for C4's theorem: the ranking `Rk4` the script builds from
`Tsym` for `% Filled Volume`. -/
theorem ranking_builder_sound_witness :
    Tsym.wf ∧ rankTable? Tsym Metric.filledPct = some Rk4 ∧
    (Rk4.names = rankLabels ∧
     (∃ base perm, rankBase? Tsym = some base ∧ Rk4 = base.reorder perm ∧
       perm.Perm (List.range Tsym.nRows)) ∧
     (∀ ksS, numCol? Rk4 Metric.filledPct.label = some ksS →
       ∀ i j : ℕ, i < j → j < ksS.length →
         (Metric.filledPct.higherIsBetter = true →
           pyLt (ksS.getD i .nan) (ksS.getD j .nan) = false) ∧
         (Metric.filledPct.higherIsBetter = false →
           pyLt (ksS.getD j .nan) (ksS.getD i .nan) = false))) :=
  ⟨by decide, by with_unfolding_all rfl,
   ranking_builder_sound Tsym Metric.filledPct Rk4 (by decide)
     (by with_unfolding_all rfl)⟩

/-- Witness for C8's theorem on the spec §8 report and `EURUSD`. -/
theorem empty_subset_guard_witness :
    Tok.wf ∧
    Tok.get? "Core Symbol" = some (ColData.strs ["EURUSD", "EURUSD", "GBPUSD"]) ∧
    (bestWorst [] Metric.filledPct = Except.error SelErr.emptySubset ∧
     (∀ ks : List PyF, ks ≠ [] →
       bestWorst ks Metric.filledPct ≠ Except.error SelErr.emptySubset) ∧
     ("EURUSD" ∈ symbolOptions Tok →
       1 ≤ (symScope Tok "EURUSD").nRows ∧
       ∀ ks, numCol? (symScope Tok "EURUSD") Metric.filledPct.col = some ks →
         bestWorst ks Metric.filledPct ≠ Except.error SelErr.emptySubset)) :=
  ⟨by decide, by with_unfolding_all rfl,
   empty_subset_guard Tok "EURUSD" Metric.filledPct
     ["EURUSD", "EURUSD", "GBPUSD"] (by decide) (by with_unfolding_all rfl)⟩

end LPDash
